import Mathlib

/-!
Verification of the Brainfuck JIT compiler (x86-64 / Linux) against its
natural-language specification.

The development shallowly embeds the C program: the code buffer is a list of
byte values (Nat, kept below 256 by construction), the emitters append to it,
fallible operations return Except, and the machine integers of the jump
displacement arithmetic are modelled as Int with explicit reduction modulo
2^32 at the points where the C program converts to uint32_t.  The verbose
logging (vlog) of the C program is diagnostic-only state that never feeds
back into the emitted code and is omitted from the embedding.
-/

namespace BfJit

/-- CODE_SIZE constant: 1 MiB code buffer. -/
def CODE_SIZE : Nat := 1 <<< 20

/-- TAPE_SIZE constant: 64 KiB tape. -/
def TAPE_SIZE : Nat := 1 <<< 16

/-- MAX_NESTING constant: maximum bracket nesting depth. -/
def MAX_NESTING : Nat := 256

/-- mmap/mprotect protection bits, as on Linux. -/
def PROT_READ : Nat := 1

/-- PROT_WRITE bit. -/
def PROT_WRITE : Nat := 2

/-- PROT_EXEC bit. -/
def PROT_EXEC : Nat := 4

/-- The code-buffer state: the bytes emitted so far (code_len is the length). -/
structure St where
  code : List Nat
deriving Repr, DecidableEq

/-- Errors that abort compilation.  check_space prints and exits(1) on
overflow; the compile loop returns -1 on an unmatched close.  Both are
modelled as Except errors, distinguished because the C control flow differs
(exit(1) bypasses the cleanup in main, return -1 does not). -/
inductive Err where
  | overflow (used need : Nat)
  | unmatchedClose (pos : Nat)
deriving Repr, DecidableEq

/-- Little-endian byte decomposition of a value (w bytes). -/
def leBytes : Nat → Nat → List Nat
  | 0, _ => []
  | w + 1, v => v % 256 :: leBytes w (v / 256)

/-- Read a 32-bit little-endian value from the code at an offset. -/
def readU32 (code : List Nat) (off : Nat) : Nat :=
  code.getD off 0 + 256 * code.getD (off + 1) 0 +
    65536 * code.getD (off + 2) 0 + 16777216 * code.getD (off + 3) 0

/-- Interpret a 32-bit value as a two's-complement signed integer. -/
def toInt32 (v : Nat) : Int :=
  if v < 2 ^ 31 then (v : Int) else (v : Int) - 2 ^ 32

/-- C conversion of a signed int to uint8_t (reduction mod 2^8). -/
def u8ofInt (x : Int) : Nat := (x % 256).toNat

/-- C conversion of a signed int to uint32_t (reduction mod 2^32). -/
def u32ofInt (x : Int) : Nat := (x % 2 ^ 32).toNat

/-- check_space: fatal error if the emission would overflow the code buffer. -/
def check_space (need : Nat) (s : St) : Except Err Unit :=
  if s.code.length + need > CODE_SIZE then
    .error (.overflow s.code.length need)
  else
    .ok ()

/-- emit_byte: append one byte. -/
def emit_byte (b : Nat) (s : St) : Except Err St :=
  match check_space 1 s with
  | .error e => .error e
  | .ok _ => .ok ⟨s.code ++ [b]⟩

/-- emit_bytes: append a byte string. -/
def emit_bytes (buf : List Nat) (s : St) : Except Err St :=
  match check_space buf.length s with
  | .error e => .error e
  | .ok _ => .ok ⟨s.code ++ buf⟩

/-- emit_u32: append a 32-bit little-endian value. -/
def emit_u32 (v : Nat) (s : St) : Except Err St :=
  match check_space 4 s with
  | .error e => .error e
  | .ok _ => .ok ⟨s.code ++ leBytes 4 v⟩

/-- emit_u64: append a 64-bit little-endian value. -/
def emit_u64 (v : Nat) (s : St) : Except Err St :=
  match check_space 8 s with
  | .error e => .error e
  | .ok _ => .ok ⟨s.code ++ leBytes 8 v⟩

/-- patch_u32: overwrite 4 bytes at a previously recorded offset. -/
def patch_u32 (off : Nat) (v : Nat) (s : St) : St :=
  ⟨s.code.take off ++ leBytes 4 v ++ s.code.drop (off + 4)⟩

/-- The fixed prologue bytes: push rbp; mov rbp,rsp; push r12; push r13;
mov r12,rdi; xor r13d,r13d. -/
def prologueBytes : List Nat :=
  [0x55, 0x48, 0x89, 0xe5, 0x41, 0x54, 0x41, 0x55, 0x49, 0x89, 0xfc, 0x45, 0x31, 0xed]

/-- The fixed epilogue bytes: pop r13; pop r12; pop rbp; ret. -/
def epilogueBytes : List Nat :=
  [0x41, 0x5d, 0x41, 0x5c, 0x5d, 0xc3]

/-- emit_prologue. -/
def emit_prologue (s : St) : Except Err St := emit_bytes prologueBytes s

/-- emit_epilogue. -/
def emit_epilogue (s : St) : Except Err St := emit_bytes epilogueBytes s

/-- emit_add_cell: cell increment/decrement by n (n is the signed net delta,
already reduced by the compile loop). -/
def emit_add_cell (n : Int) (s : St) : Except Err St :=
  if n = 1 then
    emit_bytes [0x43, 0xfe, 0x04, 0x2c] s
  else if n = -1 then
    emit_bytes [0x43, 0xfe, 0x0c, 0x2c] s
  else if n > 0 then
    emit_bytes [0x43, 0x80, 0x04, 0x2c, u8ofInt n] s
  else
    emit_bytes [0x43, 0x80, 0x2c, 0x2c, u8ofInt (-n)] s

/-- emit_move_ptr: pointer move by n. -/
def emit_move_ptr (n : Int) (s : St) : Except Err St :=
  if n = 1 then
    emit_bytes [0x49, 0xff, 0xc5] s
  else if n = -1 then
    emit_bytes [0x49, 0xff, 0xcd] s
  else if n > 0 ∧ n ≤ 127 then
    emit_bytes [0x49, 0x83, 0xc5, u8ofInt n] s
  else if n < 0 ∧ n ≥ -127 then
    emit_bytes [0x49, 0x83, 0xed, u8ofInt (-n)] s
  else if n > 0 then
    match emit_byte 0x49 s with
    | .error e => .error e
    | .ok s =>
      match emit_byte 0x81 s with
      | .error e => .error e
      | .ok s =>
        match emit_byte 0xc5 s with
        | .error e => .error e
        | .ok s => emit_u32 (u32ofInt n) s
  else
    match emit_byte 0x49 s with
    | .error e => .error e
    | .ok s =>
      match emit_byte 0x81 s with
      | .error e => .error e
      | .ok s =>
        match emit_byte 0xed s with
        | .error e => .error e
        | .ok s => emit_u32 (u32ofInt (-n)) s

/-- emit_putchar: movzx edi, byte [r12+r13]; mov rax, putchar; call rax.
The absolute address of the external putchar routine is a link/load-time
value of the process, passed as a parameter pc. -/
def emit_putchar (pc : Nat) (s : St) : Except Err St :=
  match emit_bytes [0x43, 0x0f, 0xb6, 0x3c, 0x2c] s with
  | .error e => .error e
  | .ok s =>
    match emit_byte 0x48 s with
    | .error e => .error e
    | .ok s =>
      match emit_byte 0xb8 s with
      | .error e => .error e
      | .ok s =>
        match emit_u64 pc s with
        | .error e => .error e
        | .ok s =>
          match emit_byte 0xff s with
          | .error e => .error e
          | .ok s => emit_byte 0xd0 s

/-- emit_getchar: mov rax, getchar; call rax; mov byte [r12+r13], al. -/
def emit_getchar (gc : Nat) (s : St) : Except Err St :=
  match emit_byte 0x48 s with
  | .error e => .error e
  | .ok s =>
    match emit_byte 0xb8 s with
    | .error e => .error e
    | .ok s =>
      match emit_u64 gc s with
      | .error e => .error e
      | .ok s =>
        match emit_byte 0xff s with
        | .error e => .error e
        | .ok s =>
          match emit_byte 0xd0 s with
          | .error e => .error e
          | .ok s => emit_bytes [0x43, 0x88, 0x04, 0x2c] s

/-- emit_cmp_cell_zero: cmp byte [r12+r13], 0 (shared by loop open and close). -/
def emit_cmp_cell_zero (s : St) : Except Err St :=
  emit_bytes [0x43, 0x80, 0x3c, 0x2c, 0x00] s

/-- emit_loop_open: cmp; je rel32 with a 4-byte placeholder.  Returns the
offset of the placeholder for backpatching. -/
def emit_loop_open (s : St) : Except Err (Nat × St) :=
  match emit_cmp_cell_zero s with
  | .error e => .error e
  | .ok s =>
    match emit_byte 0x0f s with
    | .error e => .error e
    | .ok s =>
      match emit_byte 0x84 s with
      | .error e => .error e
      | .ok s =>
        let fixup := s.code.length
        match emit_u32 0 s with
        | .error e => .error e
        | .ok s => .ok (fixup, s)

/-- emit_loop_close: cmp; jne rel32 backward to the cmp of the matching open,
and patch the open placeholder to point just past this block. -/
def emit_loop_close (open_fixup : Nat) (s : St) : Except Err St :=
  match emit_cmp_cell_zero s with
  | .error e => .error e
  | .ok s =>
    match emit_byte 0x0f s with
    | .error e => .error e
    | .ok s =>
      match emit_byte 0x85 s with
      | .error e => .error e
      | .ok s =>
        let back_disp : Int := ((open_fixup : Int) - 7) - ((s.code.length : Int) + 4)
        match emit_u32 (u32ofInt back_disp) s with
        | .error e => .error e
        | .ok s =>
          let fwd_disp : Int := (s.code.length : Int) - ((open_fixup : Int) + 4)
          .ok (patch_u32 open_fixup (u32ofInt fwd_disp) s)

/-- The run-length scan for a maximal run of cell operators: net delta of the
leading run of consecutive + and - characters, and the remaining source.
This is the inner while loop of the + and - case of compile. -/
def plusRun : List Char → Int × List Char
  | [] => (0, [])
  | c :: t =>
    if c = '+' ∨ c = '-' then
      ((if c = '+' then 1 else -1) + (plusRun t).1, (plusRun t).2)
    else
      (0, c :: t)

/-- The run-length scan for a maximal run of pointer operators (the inner
while loop of the greater-than and less-than case of compile). -/
def arrowRun : List Char → Int × List Char
  | [] => (0, [])
  | c :: t =>
    if c = '>' ∨ c = '<' then
      ((if c = '>' then 1 else -1) + (arrowRun t).1, (arrowRun t).2)
    else
      (0, c :: t)

/-- The clamp of the cell delta: ((delta % 256) + 256) % 256, with the C
truncating signed % (Int.tmod). -/
def clampDelta (d : Int) : Int := (d.tmod 256 + 256).tmod 256

theorem plusRun_snd_length (l : List Char) : (plusRun l).2.length ≤ l.length := by
  induction l with
  | nil => simp [plusRun]
  | cons c t ih =>
    simp only [plusRun]
    split
    · simpa using Nat.le_succ_of_le ih
    · simp

theorem arrowRun_snd_length (l : List Char) : (arrowRun l).2.length ≤ l.length := by
  induction l with
  | nil => simp [arrowRun]
  | cons c t ih =>
    simp only [arrowRun]
    split
    · simpa using Nat.le_succ_of_le ih
    · simp

theorem plusRun_cons_lt {c : Char} {t : List Char} (h : c = '+' ∨ c = '-') :
    (plusRun (c :: t)).2.length < (c :: t).length := by
  simp only [plusRun, if_pos h, List.length_cons]
  exact Nat.lt_succ_of_le (plusRun_snd_length t)

theorem arrowRun_cons_lt {c : Char} {t : List Char} (h : c = '>' ∨ c = '<') :
    (arrowRun (c :: t)).2.length < (c :: t).length := by
  simp only [arrowRun, if_pos h, List.length_cons]
  exact Nat.lt_succ_of_le (arrowRun_snd_length t)

/-- The compile loop of compile: walks the source, collapsing runs,
dispatching to the emitters and maintaining the backpatch stack.  The
parameters pc and gc are the absolute addresses of putchar and getchar in
the running process (baked into the emitted code).  The index i is the
position in the source (used in diagnostics).  Returns the final fixup
stack together with the state; the C code keeps the stack in a local array
and drops it at the end of the loop without inspecting its depth. -/
def compileLoop (pc gc : Nat) : List Char → Nat → List Nat → St →
    Except Err (List Nat × St)
  | [], _, fixups, s => .ok (fixups, s)
  | c :: t, i, fixups, s =>
    if hpm : c = '+' ∨ c = '-' then
      let d := (plusRun (c :: t)).1
      let rest := (plusRun (c :: t)).2
      let delta := clampDelta d
      if delta = 0 then
        compileLoop pc gc rest (i + ((c :: t).length - rest.length)) fixups s
      else if delta ≤ 128 then
        (emit_add_cell delta s).bind fun s =>
          compileLoop pc gc rest (i + ((c :: t).length - rest.length)) fixups s
      else
        (emit_add_cell (delta - 256) s).bind fun s =>
          compileLoop pc gc rest (i + ((c :: t).length - rest.length)) fixups s
    else if har : c = '>' ∨ c = '<' then
      let d := (arrowRun (c :: t)).1
      let rest := (arrowRun (c :: t)).2
      if d = 0 then
        compileLoop pc gc rest (i + ((c :: t).length - rest.length)) fixups s
      else
        (emit_move_ptr d s).bind fun s =>
          compileLoop pc gc rest (i + ((c :: t).length - rest.length)) fixups s
    else if c = '.' then
      (emit_putchar pc s).bind fun s => compileLoop pc gc t (i + 1) fixups s
    else if c = ',' then
      (emit_getchar gc s).bind fun s => compileLoop pc gc t (i + 1) fixups s
    else if c = '[' then
      (emit_loop_open s).bind fun fs => compileLoop pc gc t (i + 1) (fs.1 :: fixups) fs.2
    else if c = ']' then
      if fixups.isEmpty then .error (.unmatchedClose i)
      else
        (emit_loop_close (fixups.headD 0) s).bind fun s =>
          compileLoop pc gc t (i + 1) fixups.tail s
    else
      compileLoop pc gc t (i + 1) fixups s
termination_by l => l.length
decreasing_by
  · exact plusRun_cons_lt hpm
  · exact plusRun_cons_lt hpm
  · exact plusRun_cons_lt hpm
  · exact arrowRun_cons_lt har
  · exact arrowRun_cons_lt har
  · simp
  · simp
  · simp
  · simp
  · simp

/-- compile: emit the prologue, run the compile loop, emit the epilogue.
The C function reports success without inspecting the final depth of the
backpatch stack. -/
def compile (pc gc : Nat) (src : List Char) : Except Err St :=
  match emit_prologue ⟨[]⟩ with
  | .error e => .error e
  | .ok s =>
    match compileLoop pc gc src 0 [] s with
    | .error e => .error e
    | .ok (_, s) => emit_epilogue s

/-- Validation errors, carrying the data the C diagnostics print. -/
inductive VErr where
  | unmatchedClose (pos : Nat)
  | unmatchedOpen (pos : Nat) (unclosed : Int)
  | tooDeep (maxd : Int)
deriving Repr, DecidableEq

/-- The loop of validate_brackets: depth, max_depth and first_unmatched are
the local variables of the C function, i the current position. -/
def validateGo : List Char → Nat → Int → Int → Nat → Except VErr Unit
  | [], _, depth, max_depth, first_unmatched =>
    if depth ≠ 0 then .error (.unmatchedOpen first_unmatched depth)
    else if max_depth > (MAX_NESTING : Int) then .error (.tooDeep max_depth)
    else .ok ()
  | c :: t, i, depth, max_depth, first_unmatched =>
    if c = '[' then
      let fu := if depth = 0 then i else first_unmatched
      validateGo t (i + 1) (depth + 1) (max max_depth (depth + 1)) fu
    else if c = ']' then
      if depth = 0 then .error (.unmatchedClose i)
      else validateGo t (i + 1) (depth - 1) max_depth first_unmatched
    else
      validateGo t (i + 1) depth max_depth first_unmatched

/-- validate_brackets. -/
def validate (src : List Char) : Except VErr Unit :=
  validateGo src 0 0 0 0

/-!
A small operational model of the x86-64 subset the compiler emits, used to
give "executing the emitted code" a meaning.  Each decode case corresponds
to one of the byte encodings the emitters produce (documented in the C
comments).  r12 holds the tape base; the model folds the base into the tape
function and keeps only the cell offset r13 (ptr).  Flag modelling covers
ZF, the only flag the emitted jumps consult.
-/

/-- Machine state for executing emitted code.  The tape maps a cell offset
to a byte; out-of-range offsets are the documented unchecked limitation of
the program and are simply total here. -/
structure Mach where
  code : List Nat
  rip : Nat
  ptr : Int
  tape : Int → Nat
  rdi : Int
  rax : Int
  zf : Bool
  input : List Nat
  output : List Nat
  halted : Bool

/-- Read a 64-bit little-endian value from the code at an offset. -/
def readU64 (code : List Nat) (off : Nat) : Nat :=
  readU32 code off + 4294967296 * readU32 code (off + 4)

/-- Write a byte to the tape at the current pointer. -/
def tapeSet (tape : Int → Nat) (p : Int) (v : Nat) : Int → Nat :=
  fun j => if j = p then v else tape j

/-- One decode-and-execute step.  pcA and gcA are the absolute addresses of
the external putchar and getchar routines: an indirect call through rax
dispatches to them by address, exactly as the emitted mov rax, imm64 and
call rax do.  Returns none if the bytes at rip are not one of the encodings
the compiler emits. -/
def step (pcA gcA : Nat) (m : Mach) : Option Mach :=
  match m.code.drop m.rip with
  | 0x55 :: 0x48 :: 0x89 :: 0xe5 :: 0x41 :: 0x54 :: 0x41 :: 0x55 ::
      0x49 :: 0x89 :: 0xfc :: 0x45 :: 0x31 :: 0xed :: _ =>
    some { m with rip := m.rip + 14, ptr := 0 }
  | 0x41 :: 0x5d :: 0x41 :: 0x5c :: 0x5d :: 0xc3 :: _ =>
    some { m with rip := m.rip + 6, halted := true }
  | 0x43 :: 0xfe :: 0x04 :: 0x2c :: _ =>
    let v := (m.tape m.ptr + 1) % 256
    some { m with rip := m.rip + 4, tape := tapeSet m.tape m.ptr v, zf := v = 0 }
  | 0x43 :: 0xfe :: 0x0c :: 0x2c :: _ =>
    let v := (m.tape m.ptr + 255) % 256
    some { m with rip := m.rip + 4, tape := tapeSet m.tape m.ptr v, zf := v = 0 }
  | 0x43 :: 0x80 :: 0x04 :: 0x2c :: n :: _ =>
    let v := (m.tape m.ptr + n) % 256
    some { m with rip := m.rip + 5, tape := tapeSet m.tape m.ptr v, zf := v = 0 }
  | 0x43 :: 0x80 :: 0x2c :: 0x2c :: n :: _ =>
    let v := (m.tape m.ptr + (256 - n % 256)) % 256
    some { m with rip := m.rip + 5, tape := tapeSet m.tape m.ptr v, zf := v = 0 }
  | 0x43 :: 0x80 :: 0x3c :: 0x2c :: 0x00 :: _ =>
    some { m with rip := m.rip + 5, zf := m.tape m.ptr = 0 }
  | 0x49 :: 0xff :: 0xc5 :: _ =>
    some { m with rip := m.rip + 3, ptr := m.ptr + 1, zf := m.ptr + 1 = 0 }
  | 0x49 :: 0xff :: 0xcd :: _ =>
    some { m with rip := m.rip + 3, ptr := m.ptr - 1, zf := m.ptr - 1 = 0 }
  | 0x49 :: 0x83 :: 0xc5 :: n :: _ =>
    let d : Int := if n % 256 < 128 then (n % 256 : Nat) else (n % 256 : Nat) - 256
    some { m with rip := m.rip + 4, ptr := m.ptr + d, zf := m.ptr + d = 0 }
  | 0x49 :: 0x83 :: 0xed :: n :: _ =>
    let d : Int := if n % 256 < 128 then (n % 256 : Nat) else (n % 256 : Nat) - 256
    some { m with rip := m.rip + 4, ptr := m.ptr - d, zf := m.ptr - d = 0 }
  | 0x49 :: 0x81 :: 0xc5 :: _ =>
    let d := toInt32 (readU32 m.code (m.rip + 3))
    some { m with rip := m.rip + 7, ptr := m.ptr + d, zf := m.ptr + d = 0 }
  | 0x49 :: 0x81 :: 0xed :: _ =>
    let d := toInt32 (readU32 m.code (m.rip + 3))
    some { m with rip := m.rip + 7, ptr := m.ptr - d, zf := m.ptr - d = 0 }
  | 0x0f :: 0x84 :: _ =>
    let d := toInt32 (readU32 m.code (m.rip + 2))
    some { m with rip := if m.zf then ((m.rip : Int) + 6 + d).toNat else m.rip + 6 }
  | 0x0f :: 0x85 :: _ =>
    let d := toInt32 (readU32 m.code (m.rip + 2))
    some { m with rip := if m.zf then m.rip + 6 else ((m.rip : Int) + 6 + d).toNat }
  | 0x43 :: 0x0f :: 0xb6 :: 0x3c :: 0x2c :: _ =>
    some { m with rip := m.rip + 5, rdi := m.tape m.ptr }
  | 0x48 :: 0xb8 :: _ =>
    some { m with rip := m.rip + 10, rax := readU64 m.code (m.rip + 2) }
  | 0xff :: 0xd0 :: _ =>
    if m.rax = pcA then
      some { m with rip := m.rip + 2, output := m.output ++ [(m.rdi % 256).toNat],
                    rax := m.rdi % 256 }
    else if m.rax = gcA then
      match m.input with
      | b :: rest =>
        some { m with rip := m.rip + 2, rax := (b % 256 : Nat), input := rest }
      | [] => some { m with rip := m.rip + 2, rax := -1 }
    else none
  | 0x43 :: 0x88 :: 0x04 :: 0x2c :: _ =>
    some { m with rip := m.rip + 4, tape := tapeSet m.tape m.ptr (m.rax % 256).toNat }
  | _ => none

/-- Run the machine for at most fuel steps; some m only when the machine
reached the halted state (the ret of the epilogue). -/
def run (pcA gcA : Nat) : Nat → Mach → Option Mach
  | 0, m => if m.halted then some m else none
  | fuel + 1, m =>
    if m.halted then some m
    else
      match step pcA gcA m with
      | some m2 => run pcA gcA fuel m2
      | none => none

/-- The initial machine: entry point at offset 0 of the code, zero-filled
tape (mmap zero-initializes it), no input consumed, no output produced. -/
def initMach (code : List Nat) (input : List Nat) : Mach :=
  ⟨code, 0, 0, fun _ => 0, 0, 0, false, input, [], false⟩

/-- Compile a script and execute it, returning the final value of the cell
at offset zero (none on compile failure, stuck decode, or fuel exhaustion). -/
def execFinalCell (pcA gcA : Nat) (src : List Char) (fuel : Nat) : Option Nat :=
  match compile pcA gcA src with
  | .error _ => none
  | .ok s =>
    match run pcA gcA fuel (initMach s.code []) with
    | some m => if m.halted then some (m.tape 0) else none
    | none => none

/-!
Specification-side definitions.  These are stated from the spec text, not
from the C source, and are used on the specification side of refinement
statements and as hypotheses identifying bracket structure.
-/

/-- Modelled from the spec: the bracket contribution of one character. -/
def bdelta (c : Char) : Int :=
  if c = '[' then 1 else if c = ']' then -1 else 0

/-- Modelled from the spec: the net bracket balance of a script fragment. -/
def specBal (l : List Char) : Int := (l.map bdelta).sum

/-- Modelled from the spec: the naive one-instruction-per-character meaning
of a run of cell operators, one 8-bit increment or decrement per character. -/
def naiveCell (l : List Char) (cell : Nat) : Nat :=
  l.foldl (fun a c => if c = '+' then (a + 1) % 256 else (a + 255) % 256) cell

/-- Modelled from the spec: the naive one-instruction-per-character meaning
of a run of pointer operators, one pointer step per character. -/
def naivePtr (l : List Char) (p : Int) : Int :=
  l.foldl (fun a c => if c = '>' then a + 1 else a - 1) p

/-- The max_depth accumulator of validate_brackets, in isolation: d is the
current depth, md the maximum recorded so far. -/
def mdFold (d md : Int) : List Char → Int
  | [] => md
  | c :: t =>
    if c = '[' then mdFold (d + 1) (max md (d + 1)) t
    else if c = ']' then mdFold (d - 1) md t
    else mdFold d md t

/-! Byte-level utility lemmas. -/

theorem leBytes_length (w v : Nat) : (leBytes w v).length = w := by
  induction w generalizing v with
  | zero => rfl
  | succ w ih => simp [leBytes, ih]

theorem getD_append_lt {l l' : List Nat} {i : Nat} (h : i < l.length) :
    (l ++ l').getD i 0 = l.getD i 0 := by
  simp [List.getD_eq_getElem?_getD, List.getElem?_append_left h]

theorem getD_append_ge {l l' : List Nat} {i : Nat} (h : l.length ≤ i) :
    (l ++ l').getD i 0 = l'.getD (i - l.length) 0 := by
  simp [List.getD_eq_getElem?_getD, List.getElem?_append_right h]

theorem getD_take_lt {l : List Nat} {n i : Nat} (h : i < n) :
    (l.take n).getD i 0 = l.getD i 0 := by
  simp [List.getD_eq_getElem?_getD, List.getElem?_take, h]

theorem getD_drop {l : List Nat} {n i : Nat} :
    (l.drop n).getD i 0 = l.getD (n + i) 0 := by
  simp [List.getD_eq_getElem?_getD, List.getElem?_drop]

theorem readU32_append {code ext : List Nat} {off : Nat}
    (h : off + 4 ≤ code.length) :
    readU32 (code ++ ext) off = readU32 code off := by
  unfold readU32
  rw [getD_append_lt (by omega), getD_append_lt (by omega),
    getD_append_lt (by omega), getD_append_lt (by omega)]

theorem getD_append_at {l r : List Nat} (j : Nat) :
    (l ++ r).getD (l.length + j) 0 = r.getD j 0 := by
  rw [getD_append_ge (by omega)]
  congr 1
  omega

theorem readU32_leBytes {v : Nat} (h : v < 2 ^ 32) (pre post : List Nat) :
    readU32 (pre ++ (leBytes 4 v ++ post)) pre.length = v := by
  unfold readU32
  have e0 : (pre ++ (leBytes 4 v ++ post)).getD pre.length 0 =
      (leBytes 4 v ++ post).getD 0 0 := by
    have := getD_append_at (l := pre) (r := leBytes 4 v ++ post) 0
    simpa using this
  have e1 := getD_append_at (l := pre) (r := leBytes 4 v ++ post) 1
  have e2 := getD_append_at (l := pre) (r := leBytes 4 v ++ post) 2
  have e3 := getD_append_at (l := pre) (r := leBytes 4 v ++ post) 3
  rw [e0, e1, e2, e3]
  simp only [leBytes, List.cons_append, List.getD_cons_zero, List.getD_cons_succ]
  omega

theorem toInt32_u32ofInt {x : Int} (h1 : -(2 ^ 31) ≤ x) (h2 : x < 2 ^ 31) :
    toInt32 (u32ofInt x) = x := by
  unfold toInt32 u32ofInt
  split <;> omega

theorem u32ofInt_lt (x : Int) : u32ofInt x < 2 ^ 32 := by
  unfold u32ofInt
  omega

/-! Shape lemmas for the emit helpers. -/

theorem emit_bytes_eq (buf : List Nat) (s : St) :
    emit_bytes buf s =
      if s.code.length + buf.length ≤ CODE_SIZE then .ok ⟨s.code ++ buf⟩
      else .error (.overflow s.code.length buf.length) := by
  unfold emit_bytes check_space
  rcases le_or_lt (s.code.length + buf.length) CODE_SIZE with h | h
  · rw [if_neg (by omega), if_pos h]
  · rw [if_pos (by omega), if_neg (by omega)]

theorem emit_byte_eq (b : Nat) (s : St) :
    emit_byte b s =
      if s.code.length + 1 ≤ CODE_SIZE then .ok ⟨s.code ++ [b]⟩
      else .error (.overflow s.code.length 1) := by
  unfold emit_byte check_space
  rcases le_or_lt (s.code.length + 1) CODE_SIZE with h | h
  · rw [if_neg (by omega), if_pos h]
  · rw [if_pos (by omega), if_neg (by omega)]

theorem emit_u32_eq (v : Nat) (s : St) :
    emit_u32 v s =
      if s.code.length + 4 ≤ CODE_SIZE then .ok ⟨s.code ++ leBytes 4 v⟩
      else .error (.overflow s.code.length 4) := by
  unfold emit_u32 check_space
  rcases le_or_lt (s.code.length + 4) CODE_SIZE with h | h
  · rw [if_neg (by omega), if_pos h]
  · rw [if_pos (by omega), if_neg (by omega)]

theorem emit_u64_eq (v : Nat) (s : St) :
    emit_u64 v s =
      if s.code.length + 8 ≤ CODE_SIZE then .ok ⟨s.code ++ leBytes 8 v⟩
      else .error (.overflow s.code.length 8) := by
  unfold emit_u64 check_space
  rcases le_or_lt (s.code.length + 8) CODE_SIZE with h | h
  · rw [if_neg (by omega), if_pos h]
  · rw [if_pos (by omega), if_neg (by omega)]

theorem emit_bytes_ok {buf : List Nat} {s s' : St}
    (h : emit_bytes buf s = .ok s') :
    s'.code = s.code ++ buf ∧ s'.code.length = s.code.length + buf.length ∧
      s'.code.length ≤ CODE_SIZE := by
  rw [emit_bytes_eq] at h
  split at h
  · cases h
    simp_all
  · cases h

/-- The byte block emit_add_cell appends (derived from its branches). -/
def addCellBytes (n : Int) : List Nat :=
  if n = 1 then [0x43, 0xfe, 0x04, 0x2c]
  else if n = -1 then [0x43, 0xfe, 0x0c, 0x2c]
  else if n > 0 then [0x43, 0x80, 0x04, 0x2c, u8ofInt n]
  else [0x43, 0x80, 0x2c, 0x2c, u8ofInt (-n)]

theorem emit_add_cell_eq (n : Int) (s : St) :
    emit_add_cell n s = emit_bytes (addCellBytes n) s := by
  unfold emit_add_cell addCellBytes
  split_ifs <;> rfl

/-- The byte block emit_move_ptr appends (derived from its branches). -/
def movePtrBytes (n : Int) : List Nat :=
  if n = 1 then [0x49, 0xff, 0xc5]
  else if n = -1 then [0x49, 0xff, 0xcd]
  else if n > 0 ∧ n ≤ 127 then [0x49, 0x83, 0xc5, u8ofInt n]
  else if n < 0 ∧ n ≥ -127 then [0x49, 0x83, 0xed, u8ofInt (-n)]
  else if n > 0 then [0x49, 0x81, 0xc5] ++ leBytes 4 (u32ofInt n)
  else [0x49, 0x81, 0xed] ++ leBytes 4 (u32ofInt (-n))

theorem emit_byte_ok {b : Nat} {s s' : St} (h : emit_byte b s = .ok s') :
    s'.code = s.code ++ [b] ∧ s'.code.length ≤ CODE_SIZE := by
  rw [emit_byte_eq] at h
  split at h
  · cases h
    exact ⟨rfl, by rename_i hc; simpa using hc⟩
  · cases h

theorem emit_u32_ok {v : Nat} {s s' : St} (h : emit_u32 v s = .ok s') :
    s'.code = s.code ++ leBytes 4 v ∧ s'.code.length ≤ CODE_SIZE := by
  rw [emit_u32_eq] at h
  split at h
  · cases h
    refine ⟨rfl, ?_⟩
    rename_i hc
    simpa [leBytes_length] using hc
  · cases h

theorem emit_u64_ok {v : Nat} {s s' : St} (h : emit_u64 v s = .ok s') :
    s'.code = s.code ++ leBytes 8 v ∧ s'.code.length ≤ CODE_SIZE := by
  rw [emit_u64_eq] at h
  split at h
  · cases h
    refine ⟨rfl, ?_⟩
    rename_i hc
    simpa [leBytes_length] using hc
  · cases h

theorem emit_move_ptr_ok {n : Int} {s s' : St}
    (h : emit_move_ptr n s = .ok s') :
    s'.code = s.code ++ movePtrBytes n := by
  unfold emit_move_ptr at h
  unfold movePtrBytes
  split_ifs at h ⊢
  · exact (emit_bytes_ok h).1
  · exact (emit_bytes_ok h).1
  · exact (emit_bytes_ok h).1
  · exact (emit_bytes_ok h).1
  · cases h1 : emit_byte 0x49 s with
    | error e => simp only [h1] at h; exact Except.noConfusion h
    | ok s1 =>
      rw [h1] at h; dsimp only at h
      cases h2 : emit_byte 0x81 s1 with
      | error e => simp only [h2] at h; exact Except.noConfusion h
      | ok s2 =>
        rw [h2] at h; dsimp only at h
        cases h3 : emit_byte 0xc5 s2 with
        | error e => simp only [h3] at h; exact Except.noConfusion h
        | ok s3 =>
          rw [h3] at h; dsimp only at h
          have e1 := (emit_byte_ok h1).1
          have e2 := (emit_byte_ok h2).1
          have e3 := (emit_byte_ok h3).1
          have e4 := (emit_u32_ok h).1
          rw [e4, e3, e2, e1]
          simp
  · cases h1 : emit_byte 0x49 s with
    | error e => simp only [h1] at h; exact Except.noConfusion h
    | ok s1 =>
      rw [h1] at h; dsimp only at h
      cases h2 : emit_byte 0x81 s1 with
      | error e => simp only [h2] at h; exact Except.noConfusion h
      | ok s2 =>
        rw [h2] at h; dsimp only at h
        cases h3 : emit_byte 0xed s2 with
        | error e => simp only [h3] at h; exact Except.noConfusion h
        | ok s3 =>
          rw [h3] at h; dsimp only at h
          have e1 := (emit_byte_ok h1).1
          have e2 := (emit_byte_ok h2).1
          have e3 := (emit_byte_ok h3).1
          have e4 := (emit_u32_ok h).1
          rw [e4, e3, e2, e1]
          simp

/-- The byte block emit_putchar appends. -/
def putcharBytes (pc : Nat) : List Nat :=
  [0x43, 0x0f, 0xb6, 0x3c, 0x2c, 0x48, 0xb8] ++ leBytes 8 pc ++ [0xff, 0xd0]

theorem emit_putchar_ok {pc : Nat} {s s' : St}
    (h : emit_putchar pc s = .ok s') :
    s'.code = s.code ++ putcharBytes pc := by
  unfold emit_putchar at h
  cases h1 : emit_bytes [0x43, 0x0f, 0xb6, 0x3c, 0x2c] s with
  | error e => simp only [h1] at h; exact Except.noConfusion h
  | ok s1 =>
    rw [h1] at h; dsimp only at h
    cases h2 : emit_byte 0x48 s1 with
    | error e => simp only [h2] at h; exact Except.noConfusion h
    | ok s2 =>
      rw [h2] at h; dsimp only at h
      cases h3 : emit_byte 0xb8 s2 with
      | error e => simp only [h3] at h; exact Except.noConfusion h
      | ok s3 =>
        rw [h3] at h; dsimp only at h
        cases h4 : emit_u64 pc s3 with
        | error e => simp only [h4] at h; exact Except.noConfusion h
        | ok s4 =>
          rw [h4] at h; dsimp only at h
          cases h5 : emit_byte 0xff s4 with
          | error e => simp only [h5] at h; exact Except.noConfusion h
          | ok s5 =>
            rw [h5] at h; dsimp only at h
            have e1 := (emit_bytes_ok h1).1
            have e2 := (emit_byte_ok h2).1
            have e3 := (emit_byte_ok h3).1
            have e4 := (emit_u64_ok h4).1
            have e5 := (emit_byte_ok h5).1
            have e6 := (emit_byte_ok h).1
            rw [e6, e5, e4, e3, e2, e1]
            simp [putcharBytes]

/-- The byte block emit_getchar appends. -/
def getcharBytes (gc : Nat) : List Nat :=
  [0x48, 0xb8] ++ leBytes 8 gc ++ [0xff, 0xd0, 0x43, 0x88, 0x04, 0x2c]

theorem emit_getchar_ok {gc : Nat} {s s' : St}
    (h : emit_getchar gc s = .ok s') :
    s'.code = s.code ++ getcharBytes gc := by
  unfold emit_getchar at h
  cases h1 : emit_byte 0x48 s with
  | error e => simp only [h1] at h; exact Except.noConfusion h
  | ok s1 =>
    rw [h1] at h; dsimp only at h
    cases h2 : emit_byte 0xb8 s1 with
    | error e => simp only [h2] at h; exact Except.noConfusion h
    | ok s2 =>
      rw [h2] at h; dsimp only at h
      cases h3 : emit_u64 gc s2 with
      | error e => simp only [h3] at h; exact Except.noConfusion h
      | ok s3 =>
        rw [h3] at h; dsimp only at h
        cases h4 : emit_byte 0xff s3 with
        | error e => simp only [h4] at h; exact Except.noConfusion h
        | ok s4 =>
          rw [h4] at h; dsimp only at h
          cases h5 : emit_byte 0xd0 s4 with
          | error e => simp only [h5] at h; exact Except.noConfusion h
          | ok s5 =>
            rw [h5] at h; dsimp only at h
            have e1 := (emit_byte_ok h1).1
            have e2 := (emit_byte_ok h2).1
            have e3 := (emit_u64_ok h3).1
            have e4 := (emit_byte_ok h4).1
            have e5 := (emit_byte_ok h5).1
            have e6 := (emit_bytes_ok h).1
            rw [e6, e5, e4, e3, e2, e1]
            simp [getcharBytes]

/-- The byte block of a loop open: cmp; je with a zero placeholder. -/
def openBytes : List Nat :=
  [0x43, 0x80, 0x3c, 0x2c, 0x00, 0x0f, 0x84, 0, 0, 0, 0]

theorem emit_loop_open_ok {s : St} {f : Nat} {s' : St}
    (h : emit_loop_open s = .ok (f, s')) :
    f = s.code.length + 7 ∧ s'.code = s.code ++ openBytes ∧
      s'.code.length = s.code.length + 11 ∧ s'.code.length ≤ CODE_SIZE := by
  unfold emit_loop_open emit_cmp_cell_zero at h
  cases h1 : emit_bytes [0x43, 0x80, 0x3c, 0x2c, 0x00] s with
  | error e => simp only [h1] at h; exact Except.noConfusion h
  | ok s1 =>
    rw [h1] at h; dsimp only at h
    cases h2 : emit_byte 0x0f s1 with
    | error e => simp only [h2] at h; exact Except.noConfusion h
    | ok s2 =>
      rw [h2] at h; dsimp only at h
      cases h3 : emit_byte 0x84 s2 with
      | error e => simp only [h3] at h; exact Except.noConfusion h
      | ok s3 =>
        rw [h3] at h; dsimp only at h
        cases h4 : emit_u32 0 s3 with
        | error e => simp only [h4] at h; exact Except.noConfusion h
        | ok s4 =>
          rw [h4] at h; dsimp only at h
          cases h
          have e1 := (emit_bytes_ok h1).1
          have e2 := (emit_byte_ok h2).1
          have e3 := (emit_byte_ok h3).1
          have e4 := (emit_u32_ok h4).1
          have len4 := (emit_u32_ok h4).2
          constructor
          · rw [e3, e2, e1]
            simp
          · refine ⟨?_, ?_, ?_⟩
            · rw [e4, e3, e2, e1]
              simp [openBytes, leBytes]
            · rw [e4, e3, e2, e1]
              simp [leBytes]
            · exact len4

theorem patch_u32_length {off v : Nat} {s : St} (h : off + 4 ≤ s.code.length) :
    (patch_u32 off v s).code.length = s.code.length := by
  simp [patch_u32, leBytes_length]
  omega

theorem getD_patch {off v : Nat} {s : St} {j : Nat} (h : off + 4 ≤ s.code.length)
    (hj : j < off ∨ off + 4 ≤ j) :
    (patch_u32 off v s).code.getD j 0 = s.code.getD j 0 := by
  have htk : (s.code.take off).length = off := by
    simp
    omega
  have hlb : (leBytes 4 v).length = 4 := leBytes_length 4 v
  rcases hj with hj | hj
  · show ((s.code.take off ++ leBytes 4 v) ++ s.code.drop (off + 4)).getD j 0 = _
    rw [getD_append_lt (by simp [htk, hlb]; omega),
      getD_append_lt (by simp [htk]; omega), getD_take_lt hj]
  · show ((s.code.take off ++ leBytes 4 v) ++ s.code.drop (off + 4)).getD j 0 = _
    rw [getD_append_ge (by simp [htk, hlb]; omega)]
    rw [getD_drop]
    congr 1
    simp [htk, hlb]
    omega

theorem readU32_patch_self {off v : Nat} {s : St} (h : off + 4 ≤ s.code.length)
    (hv : v < 2 ^ 32) :
    readU32 (patch_u32 off v s).code off = v := by
  have htk : (s.code.take off).length = off := by
    simp
    omega
  show readU32 (s.code.take off ++ leBytes 4 v ++ s.code.drop (off + 4)) off = v
  rw [List.append_assoc]
  have := readU32_leBytes hv (s.code.take off) (s.code.drop (off + 4))
  rwa [htk] at this

theorem readU32_patch_other {off v : Nat} {s : St} {k : Nat}
    (h : off + 4 ≤ s.code.length) (hk : k + 4 ≤ s.code.length)
    (hdisj : k + 4 ≤ off ∨ off + 4 ≤ k) :
    readU32 (patch_u32 off v s).code k = readU32 s.code k := by
  unfold readU32
  rw [getD_patch h (by omega), getD_patch h (by omega), getD_patch h (by omega),
    getD_patch h (by omega)]

/-- The first seven bytes of a loop close: cmp; the jne opcode. -/
def closePre : List Nat := [0x43, 0x80, 0x3c, 0x2c, 0x00, 0x0f, 0x85]

theorem emit_loop_close_ok {f : Nat} {s s' : St}
    (h : emit_loop_close f s = .ok s') :
    s.code.length + 11 ≤ CODE_SIZE ∧
      s' = patch_u32 f (u32ofInt ((s.code.length + 11 : Int) - ((f : Int) + 4)))
        ⟨s.code ++ closePre ++
          leBytes 4 (u32ofInt (((f : Int) - 7) - ((s.code.length : Int) + 11)))⟩ := by
  unfold emit_loop_close emit_cmp_cell_zero at h
  cases h1 : emit_bytes [0x43, 0x80, 0x3c, 0x2c, 0x00] s with
  | error e => simp only [h1] at h; exact Except.noConfusion h
  | ok s1 =>
    rw [h1] at h; dsimp only at h
    cases h2 : emit_byte 0x0f s1 with
    | error e => simp only [h2] at h; exact Except.noConfusion h
    | ok s2 =>
      rw [h2] at h; dsimp only at h
      cases h3 : emit_byte 0x85 s2 with
      | error e => simp only [h3] at h; exact Except.noConfusion h
      | ok s3 =>
        rw [h3] at h; dsimp only at h
        cases h4 : emit_u32 (u32ofInt (((f : Int) - 7) - ((s3.code.length : Int) + 4))) s3 with
        | error e => simp only [h4] at h; exact Except.noConfusion h
        | ok s4 =>
          rw [h4] at h; dsimp only at h
          cases h
          have e1 := (emit_bytes_ok h1).1
          have e2 := (emit_byte_ok h2).1
          have e3 := (emit_byte_ok h3).1
          have e4 := (emit_u32_ok h4).1
          have l4 := (emit_u32_ok h4).2
          have hs3 : s3.code = s.code ++ closePre := by
            rw [e3, e2, e1]
            simp [closePre]
          have hs3l : s3.code.length = s.code.length + 7 := by
            rw [hs3]
            simp [closePre]
          have harg : (f : Int) - 7 - ((s3.code.length : Int) + 4) =
              (f : Int) - 7 - ((s.code.length : Int) + 11) := by
            rw [hs3l]
            push_cast
            ring
          have hs4 : s4.code = s.code ++ closePre ++
              leBytes 4 (u32ofInt (((f : Int) - 7) - ((s.code.length : Int) + 11))) := by
            rw [e4, harg, hs3]
          have hs4l : s4.code.length = s.code.length + 11 := by
            rw [hs4]
            simp [closePre, leBytes_length]
          have hs4st : s4 = (⟨s.code ++ closePre ++
              leBytes 4 (u32ofInt (((f : Int) - 7) - ((s.code.length : Int) + 11)))⟩ : St) :=
            congrArg St.mk hs4
          constructor
          · rw [← hs4l]
            exact l4
          · rw [hs4l, hs4st]
            norm_cast

theorem emit_loop_close_disp {f : Nat} {s s' : St}
    (h : emit_loop_close f s = .ok s') (hf : f + 4 ≤ s.code.length) :
    s'.code.length = s.code.length + 11 ∧
      s.code.length + 11 ≤ CODE_SIZE ∧
      readU32 s'.code f = u32ofInt ((s.code.length + 11 : Int) - ((f : Int) + 4)) ∧
      readU32 s'.code (s.code.length + 7) =
        u32ofInt (((f : Int) - 7) - ((s.code.length : Int) + 11)) ∧
      (∀ k, k + 4 ≤ s.code.length → (k + 4 ≤ f ∨ f + 4 ≤ k) →
        readU32 s'.code k = readU32 s.code k) := by
  obtain ⟨hcs, hs'⟩ := emit_loop_close_ok h
  set bb := u32ofInt (((f : Int) - 7) - ((s.code.length : Int) + 11)) with hbb
  set fw := u32ofInt ((s.code.length + 11 : Int) - ((f : Int) + 4)) with hfw
  set big : St := ⟨s.code ++ closePre ++ leBytes 4 bb⟩ with hbig
  have hbigl : big.code.length = s.code.length + 11 := by
    simp [hbig, closePre, leBytes_length]
  have hfbig : f + 4 ≤ big.code.length := by omega
  refine ⟨?_, hcs, ?_, ?_, ?_⟩
  · rw [hs']
    rw [patch_u32_length hfbig, hbigl]
  · rw [hs']
    rw [readU32_patch_self hfbig (u32ofInt_lt _)]
  · rw [hs']
    rw [readU32_patch_other hfbig (by omega) (by omega)]
    have : big.code = (s.code ++ closePre) ++ (leBytes 4 bb ++ []) := by
      simp [hbig]
    rw [this]
    have hpl : (s.code ++ closePre).length = s.code.length + 7 := by
      simp [closePre]
    have hbblt : bb < 2 ^ 32 := by
      rw [hbb]
      exact u32ofInt_lt _
    have := readU32_leBytes hbblt (s.code ++ closePre) []
    rwa [hpl] at this
  · intro k hk hdisj
    rw [hs']
    rw [readU32_patch_other hfbig (by omega) (by omega)]
    simp only [hbig, List.append_assoc]
    exact readU32_append (by omega)

/-! Run-length scan lemmas. -/

/-- The per-character delta of a cell-operator run. -/
def pmDelta (c : Char) : Int := if c = '+' then 1 else -1

/-- The per-character delta of a pointer-operator run. -/
def arDelta (c : Char) : Int := if c = '>' then 1 else -1

/-- True when a list does not begin with a cell-operator character, so a
maximal cell-operator run cannot extend into it. -/
def runBreakPM : List Char → Bool
  | [] => true
  | c :: _ => decide (c ≠ '+' ∧ c ≠ '-')

/-- True when a list does not begin with a pointer-operator character. -/
def runBreakAR : List Char → Bool
  | [] => true
  | c :: _ => decide (c ≠ '>' ∧ c ≠ '<')

theorem plusRun_eq_of_all {l : List Char} (h : ∀ c ∈ l, c = '+' ∨ c = '-') :
    plusRun l = ((l.map pmDelta).sum, []) := by
  induction l with
  | nil => simp [plusRun]
  | cons c t ih =>
    have hc : c = '+' ∨ c = '-' := h c (by simp)
    have ht := ih (fun x hx => h x (by simp [hx]))
    simp [plusRun, if_pos hc, ht, pmDelta]

theorem arrowRun_eq_of_all {l : List Char} (h : ∀ c ∈ l, c = '>' ∨ c = '<') :
    arrowRun l = ((l.map arDelta).sum, []) := by
  induction l with
  | nil => simp [arrowRun]
  | cons c t ih =>
    have hc : c = '>' ∨ c = '<' := h c (by simp)
    have ht := ih (fun x hx => h x (by simp [hx]))
    simp [arrowRun, if_pos hc, ht, arDelta]

theorem plusRun_decomp (l : List Char) :
    ∃ a, l = a ++ (plusRun l).2 ∧ (∀ c ∈ a, c = '+' ∨ c = '-') ∧
      (plusRun l).1 = (a.map pmDelta).sum := by
  induction l with
  | nil => exact ⟨[], by simp [plusRun]⟩
  | cons c t ih =>
    by_cases hc : c = '+' ∨ c = '-'
    · obtain ⟨a, ha1, ha2, ha3⟩ := ih
      refine ⟨c :: a, ?_, ?_, ?_⟩
      · simp [plusRun, if_pos hc]
        exact ha1
      · intro x hx
        rcases List.mem_cons.mp hx with hx | hx
        · exact hx ▸ hc
        · exact ha2 x hx
      · simp [plusRun, if_pos hc, ha3, pmDelta]
    · exact ⟨[], by simp [plusRun, if_neg hc], by simp, by simp [plusRun, if_neg hc]⟩

theorem arrowRun_decomp (l : List Char) :
    ∃ a, l = a ++ (arrowRun l).2 ∧ (∀ c ∈ a, c = '>' ∨ c = '<') ∧
      (arrowRun l).1 = (a.map arDelta).sum := by
  induction l with
  | nil => exact ⟨[], by simp [arrowRun]⟩
  | cons c t ih =>
    by_cases hc : c = '>' ∨ c = '<'
    · obtain ⟨a, ha1, ha2, ha3⟩ := ih
      refine ⟨c :: a, ?_, ?_, ?_⟩
      · simp [arrowRun, if_pos hc]
        exact ha1
      · intro x hx
        rcases List.mem_cons.mp hx with hx | hx
        · exact hx ▸ hc
        · exact ha2 x hx
      · simp [arrowRun, if_pos hc, ha3, arDelta]
    · exact ⟨[], by simp [arrowRun, if_neg hc], by simp, by simp [arrowRun, if_neg hc]⟩

theorem plusRun_append {a rest : List Char} (h : runBreakPM rest = true) :
    plusRun (a ++ rest) = ((plusRun a).1, (plusRun a).2 ++ rest) := by
  induction a with
  | nil =>
    cases rest with
    | nil => simp [plusRun]
    | cons c t =>
      simp only [runBreakPM, decide_eq_true_eq] at h
      have hne : ¬(c = '+' ∨ c = '-') := by tauto
      simp [plusRun, hne]
  | cons c t ih =>
    by_cases hc : c = '+' ∨ c = '-'
    · simp [plusRun, if_pos hc, ih]
    · simp [plusRun, if_neg hc]

theorem arrowRun_append {a rest : List Char} (h : runBreakAR rest = true) :
    arrowRun (a ++ rest) = ((arrowRun a).1, (arrowRun a).2 ++ rest) := by
  induction a with
  | nil =>
    cases rest with
    | nil => simp [arrowRun]
    | cons c t =>
      simp only [runBreakAR, decide_eq_true_eq] at h
      have hne : ¬(c = '>' ∨ c = '<') := by tauto
      simp [arrowRun, hne]
  | cons c t ih =>
    by_cases hc : c = '>' ∨ c = '<'
    · simp [arrowRun, if_pos hc, ih]
    · simp [arrowRun, if_neg hc]

theorem plusRun_snd_break (l : List Char) : runBreakPM (plusRun l).2 = true := by
  induction l with
  | nil => simp [plusRun, runBreakPM]
  | cons c t ih =>
    by_cases hc : c = '+' ∨ c = '-'
    · simpa [plusRun, if_pos hc] using ih
    · simp [plusRun, if_neg hc, runBreakPM]
      tauto

theorem arrowRun_snd_break (l : List Char) : runBreakAR (arrowRun l).2 = true := by
  induction l with
  | nil => simp [arrowRun, runBreakAR]
  | cons c t ih =>
    by_cases hc : c = '>' ∨ c = '<'
    · simpa [arrowRun, if_pos hc] using ih
    · simp [arrowRun, if_neg hc, runBreakAR]
      tauto

/-! Bracket-balance lemmas. -/

theorem specBal_append (a b : List Char) :
    specBal (a ++ b) = specBal a + specBal b := by
  simp [specBal]

theorem specBal_cons (c : Char) (t : List Char) :
    specBal (c :: t) = bdelta c + specBal t := by
  simp [specBal]

theorem specBal_pm {a : List Char} (h : ∀ c ∈ a, c = '+' ∨ c = '-') :
    specBal a = 0 := by
  induction a with
  | nil => simp [specBal]
  | cons c t ih =>
    have hc := h c (by simp)
    rw [specBal_cons, ih (fun x hx => h x (by simp [hx]))]
    rcases hc with hc | hc <;> simp [hc, bdelta]

theorem specBal_ar {a : List Char} (h : ∀ c ∈ a, c = '>' ∨ c = '<') :
    specBal a = 0 := by
  induction a with
  | nil => simp [specBal]
  | cons c t ih =>
    have hc := h c (by simp)
    rw [specBal_cons, ih (fun x hx => h x (by simp [hx]))]
    rcases hc with hc | hc <;> simp [hc, bdelta]

/-! Step equations for the compile loop, one per character class. -/

theorem compileLoop_nil (pc gc i : Nat) (fx : List Nat) (s : St) :
    compileLoop pc gc [] i fx s = .ok (fx, s) := by
  rw [compileLoop]

theorem compileLoop_pm {c : Char} {t : List Char} (h : c = '+' ∨ c = '-')
    (pc gc i : Nat) (fx : List Nat) (s : St) :
    compileLoop pc gc (c :: t) i fx s =
      (if clampDelta (plusRun (c :: t)).1 = 0 then
        compileLoop pc gc (plusRun (c :: t)).2
          (i + ((c :: t).length - (plusRun (c :: t)).2.length)) fx s
      else if clampDelta (plusRun (c :: t)).1 ≤ 128 then
        (emit_add_cell (clampDelta (plusRun (c :: t)).1) s).bind fun s2 =>
          compileLoop pc gc (plusRun (c :: t)).2
            (i + ((c :: t).length - (plusRun (c :: t)).2.length)) fx s2
      else
        (emit_add_cell (clampDelta (plusRun (c :: t)).1 - 256) s).bind fun s2 =>
          compileLoop pc gc (plusRun (c :: t)).2
            (i + ((c :: t).length - (plusRun (c :: t)).2.length)) fx s2) := by
  rw [compileLoop]
  rw [dif_pos h]

theorem compileLoop_ar {c : Char} {t : List Char} (h1 : ¬(c = '+' ∨ c = '-'))
    (h2 : c = '>' ∨ c = '<') (pc gc i : Nat) (fx : List Nat) (s : St) :
    compileLoop pc gc (c :: t) i fx s =
      (if (arrowRun (c :: t)).1 = 0 then
        compileLoop pc gc (arrowRun (c :: t)).2
          (i + ((c :: t).length - (arrowRun (c :: t)).2.length)) fx s
      else
        (emit_move_ptr (arrowRun (c :: t)).1 s).bind fun s2 =>
          compileLoop pc gc (arrowRun (c :: t)).2
            (i + ((c :: t).length - (arrowRun (c :: t)).2.length)) fx s2) := by
  rw [compileLoop]
  rw [dif_neg h1, dif_pos h2]

theorem compileLoop_putc (pc gc i : Nat) (fx : List Nat) (s : St) (t : List Char) :
    compileLoop pc gc ('.' :: t) i fx s =
      (emit_putchar pc s).bind fun s2 => compileLoop pc gc t (i + 1) fx s2 := by
  rw [compileLoop]
  rw [dif_neg (by decide), dif_neg (by decide), if_pos rfl]

theorem compileLoop_getc (pc gc i : Nat) (fx : List Nat) (s : St) (t : List Char) :
    compileLoop pc gc (',' :: t) i fx s =
      (emit_getchar gc s).bind fun s2 => compileLoop pc gc t (i + 1) fx s2 := by
  rw [compileLoop]
  rw [dif_neg (by decide), dif_neg (by decide), if_neg (by decide), if_pos rfl]

theorem compileLoop_open (pc gc i : Nat) (fx : List Nat) (s : St) (t : List Char) :
    compileLoop pc gc ('[' :: t) i fx s =
      (emit_loop_open s).bind fun fs =>
        compileLoop pc gc t (i + 1) (fs.1 :: fx) fs.2 := by
  rw [compileLoop]
  rw [dif_neg (by decide), dif_neg (by decide), if_neg (by decide),
    if_neg (by decide), if_pos rfl]

theorem compileLoop_closeStep (pc gc i : Nat) (fx : List Nat) (s : St) (t : List Char) :
    compileLoop pc gc (']' :: t) i fx s =
      (if fx.isEmpty then .error (.unmatchedClose i)
      else
        (emit_loop_close (fx.headD 0) s).bind fun s2 =>
          compileLoop pc gc t (i + 1) fx.tail s2) := by
  rw [compileLoop]
  rw [dif_neg (by decide), dif_neg (by decide), if_neg (by decide),
    if_neg (by decide), if_neg (by decide), if_pos rfl]

theorem compileLoop_other {c : Char} (h1 : ¬(c = '+' ∨ c = '-'))
    (h2 : ¬(c = '>' ∨ c = '<')) (h3 : c ≠ '.') (h4 : c ≠ ',') (h5 : c ≠ '[')
    (h6 : c ≠ ']') (pc gc i : Nat) (fx : List Nat) (s : St) (t : List Char) :
    compileLoop pc gc (c :: t) i fx s = compileLoop pc gc t (i + 1) fx s := by
  rw [compileLoop]
  rw [dif_neg h1, dif_neg h2, if_neg h3, if_neg h4, if_neg h5, if_neg h6]

/-! Structural invariants of the compile loop. -/

/-- Every recorded fixup offset lies fully inside the already emitted code
(the 4-byte placeholder it denotes has been emitted). -/
def StackOK (fx : List Nat) (s : St) : Prop := ∀ f ∈ fx, f + 4 ≤ s.code.length

theorem StackOK_mono {fx : List Nat} {s s' : St}
    (h : s.code.length ≤ s'.code.length) (hs : StackOK fx s) : StackOK fx s' :=
  fun f hf => le_trans (hs f hf) h

theorem emit_add_cell_ext {n : Int} {s s' : St}
    (h : emit_add_cell n s = .ok s') :
    s'.code = s.code ++ addCellBytes n ∧ s'.code.length ≤ CODE_SIZE := by
  rw [emit_add_cell_eq] at h
  have := emit_bytes_ok h
  tauto

/-- The frame lemma for the compile loop: the code only grows, the stack
offsets stay inside the code, and any 4-byte window of the existing code
that is disjoint from every pending fixup placeholder is byte-for-byte
preserved to the end of compilation. -/
theorem compileLoop_frame {pc gc : Nat} :
    ∀ n (l : List Char) (i : Nat) (fx : List Nat) (s : St) (fx2 : List Nat) (s2 : St),
      l.length ≤ n →
      compileLoop pc gc l i fx s = .ok (fx2, s2) → StackOK fx s →
      s.code.length ≤ s2.code.length ∧ StackOK fx2 s2 ∧
      (∀ k, k + 4 ≤ s.code.length → (∀ f ∈ fx, k + 4 ≤ f ∨ f + 4 ≤ k) →
        readU32 s2.code k = readU32 s.code k) := by
  intro n
  induction n with
  | zero =>
    intro l i fx s fx2 s2 hlen h hs
    have hl : l = [] := List.length_eq_zero.mp (Nat.le_zero.mp hlen)
    subst hl
    rw [compileLoop_nil] at h
    cases h
    exact ⟨le_rfl, hs, fun k _ _ => rfl⟩
  | succ n ih =>
    intro l i fx s fx2 s2 hlen h hs
    cases l with
    | nil =>
      rw [compileLoop_nil] at h
      cases h
      exact ⟨le_rfl, hs, fun k _ _ => rfl⟩
    | cons c t =>
      have hlt : t.length ≤ n := by simpa using hlen
      by_cases hpm : c = '+' ∨ c = '-'
      · rw [compileLoop_pm hpm] at h
        have hrlen : (plusRun (c :: t)).2.length ≤ n := by
          have := plusRun_cons_lt (t := t) hpm
          omega
        split at h
        · exact ih _ _ _ _ _ _ hrlen h hs
        · split at h
          all_goals {
            rename_i hemit0
            cases hemit : emit_add_cell _ s with
            | error e => rw [hemit] at h; simp [Except.bind] at h
            | ok s3 =>
              rw [hemit] at h
              dsimp only [Except.bind] at h
              obtain ⟨he3, _⟩ := emit_add_cell_ext hemit
              have hlen3 : s.code.length ≤ s3.code.length := by
                rw [he3]; simp
              obtain ⟨h1, h2, h3⟩ :=
                ih _ _ _ _ _ _ hrlen h (StackOK_mono hlen3 hs)
              refine ⟨le_trans hlen3 h1, h2, ?_⟩
              intro k hk hdisj
              rw [h3 k (le_trans hk hlen3) hdisj, he3, readU32_append hk]
          }
      · by_cases har : c = '>' ∨ c = '<'
        · rw [compileLoop_ar hpm har] at h
          have hrlen : (arrowRun (c :: t)).2.length ≤ n := by
            have := arrowRun_cons_lt (t := t) har
            omega
          split at h
          · exact ih _ _ _ _ _ _ hrlen h hs
          · cases hemit : emit_move_ptr (arrowRun (c :: t)).1 s with
            | error e => rw [hemit] at h; simp [Except.bind] at h
            | ok s3 =>
              rw [hemit] at h
              dsimp only [Except.bind] at h
              have he3 := emit_move_ptr_ok hemit
              have hlen3 : s.code.length ≤ s3.code.length := by
                rw [he3]; simp
              obtain ⟨h1, h2, h3⟩ :=
                ih _ _ _ _ _ _ hrlen h (StackOK_mono hlen3 hs)
              refine ⟨le_trans hlen3 h1, h2, ?_⟩
              intro k hk hdisj
              rw [h3 k (le_trans hk hlen3) hdisj, he3, readU32_append hk]
        · by_cases hdot : c = '.'
          · subst hdot
            rw [compileLoop_putc] at h
            cases hemit : emit_putchar pc s with
            | error e => rw [hemit] at h; simp [Except.bind] at h
            | ok s3 =>
              rw [hemit] at h
              dsimp only [Except.bind] at h
              have he3 := emit_putchar_ok hemit
              have hlen3 : s.code.length ≤ s3.code.length := by
                rw [he3]; simp
              obtain ⟨h1, h2, h3⟩ :=
                ih _ _ _ _ _ _ hlt h (StackOK_mono hlen3 hs)
              refine ⟨le_trans hlen3 h1, h2, ?_⟩
              intro k hk hdisj
              rw [h3 k (le_trans hk hlen3) hdisj, he3, readU32_append hk]
          · by_cases hcom : c = ','
            · subst hcom
              rw [compileLoop_getc] at h
              cases hemit : emit_getchar gc s with
              | error e => rw [hemit] at h; simp [Except.bind] at h
              | ok s3 =>
                rw [hemit] at h
                dsimp only [Except.bind] at h
                have he3 := emit_getchar_ok hemit
                have hlen3 : s.code.length ≤ s3.code.length := by
                  rw [he3]; simp
                obtain ⟨h1, h2, h3⟩ :=
                  ih _ _ _ _ _ _ hlt h (StackOK_mono hlen3 hs)
                refine ⟨le_trans hlen3 h1, h2, ?_⟩
                intro k hk hdisj
                rw [h3 k (le_trans hk hlen3) hdisj, he3, readU32_append hk]
            · by_cases hob : c = '['
              · subst hob
                rw [compileLoop_open] at h
                cases hemit : emit_loop_open s with
                | error e => rw [hemit] at h; simp [Except.bind] at h
                | ok fs3 =>
                  rw [hemit] at h
                  dsimp only [Except.bind] at h
                  obtain ⟨hf, he3, hl3, _⟩ := emit_loop_open_ok hemit
                  have hlen3 : s.code.length ≤ fs3.2.code.length := by omega
                  have hs3 : StackOK (fs3.1 :: fx) fs3.2 := by
                    intro g hg
                    rcases List.mem_cons.mp hg with hg | hg
                    · omega
                    · exact le_trans (hs g hg) hlen3
                  obtain ⟨h1, h2, h3⟩ := ih _ _ _ _ _ _ hlt h hs3
                  refine ⟨le_trans hlen3 h1, h2, ?_⟩
                  intro k hk hdisj
                  have hdisj3 : ∀ f ∈ fs3.1 :: fx, k + 4 ≤ f ∨ f + 4 ≤ k := by
                    intro g hg
                    rcases List.mem_cons.mp hg with hg | hg
                    · left; omega
                    · exact hdisj g hg
                  rw [h3 k (le_trans hk hlen3) hdisj3, he3, readU32_append hk]
              · by_cases hcb : c = ']'
                · subst hcb
                  rw [compileLoop_closeStep] at h
                  cases hfx : fx with
                  | nil => rw [hfx] at h; simp [List.isEmpty] at h
                  | cons fh ft =>
                    rw [hfx] at h
                    simp only [List.isEmpty, List.headD, List.tail] at h
                    cases hemit : emit_loop_close fh s with
                    | error e => rw [hemit] at h; simp [Except.bind] at h
                    | ok s3 =>
                      rw [hemit] at h
                      dsimp only [Except.bind] at h
                      have hfh : fh + 4 ≤ s.code.length := hs fh (by rw [hfx]; simp)
                      obtain ⟨hl3, _, _, _, hfr⟩ := emit_loop_close_disp hemit hfh
                      have hlen3 : s.code.length ≤ s3.code.length := by omega
                      have hs3 : StackOK ft s3 :=
                        StackOK_mono hlen3 (fun g hg => hs g (by rw [hfx]; simp [hg]))
                      obtain ⟨h1, h2, h3⟩ := ih _ _ _ _ _ _ hlt h hs3
                      refine ⟨le_trans hlen3 h1, h2, ?_⟩
                      intro k hk hdisj
                      have hdisjf : k + 4 ≤ fh ∨ fh + 4 ≤ k :=
                        hdisj fh (by simp)
                      have hdisj3 : ∀ f ∈ ft, k + 4 ≤ f ∨ f + 4 ≤ k :=
                        fun g hg => hdisj g (by simp [hg])
                      rw [h3 k (le_trans hk hlen3) hdisj3,
                        hfr k hk (by tauto)]
                · rw [compileLoop_other hpm har hdot hcom hob hcb] at h
                  exact ih _ _ _ _ _ _ hlt h hs

/-- Compiling a concatenation first compiles the left part, then continues
with the resulting stack and state, provided the boundary does not split a
maximal run (the right part must not begin with the same run class as the
left part ends in; a bracket boundary satisfies this). -/
theorem compileLoop_append {pc gc : Nat} :
    ∀ n (a rest : List Char) (i : Nat) (fx : List Nat) (s : St), a.length ≤ n →
      runBreakPM rest = true → runBreakAR rest = true →
      compileLoop pc gc (a ++ rest) i fx s =
        (compileLoop pc gc a i fx s).bind fun out =>
          compileLoop pc gc rest (i + a.length) out.1 out.2 := by
  intro n
  induction n with
  | zero =>
    intro a rest i fx s hlen hbp hba
    have ha : a = [] := List.length_eq_zero.mp (Nat.le_zero.mp hlen)
    subst ha
    rw [compileLoop_nil]
    simp [Except.bind]
  | succ n ih =>
    intro a rest i fx s hlen hbp hba
    cases a with
    | nil =>
      rw [compileLoop_nil]
      simp [Except.bind]
    | cons c t =>
      have hlt : t.length ≤ n := by simpa using hlen
      by_cases hpm : c = '+' ∨ c = '-'
      · have hpr := plusRun_append (a := c :: t) hbp
        have hrlen : (plusRun (c :: t)).2.length ≤ n := by
          have := plusRun_cons_lt (t := t) hpm
          omega
        have hrle : (plusRun (c :: t)).2.length ≤ (c :: t).length :=
          plusRun_snd_length _
        have hcons : (c :: t) ++ rest = c :: (t ++ rest) := by simp
        rw [hcons, compileLoop_pm hpm, compileLoop_pm hpm (t := t)]
        have hpr2 : plusRun (c :: (t ++ rest)) = ((plusRun (c :: t)).1,
            (plusRun (c :: t)).2 ++ rest) := by
          rw [← hpr]
          rfl
        rw [hpr2]
        have hpos : (c :: (t ++ rest)).length -
            ((plusRun (c :: t)).2 ++ rest).length =
            (c :: t).length - (plusRun (c :: t)).2.length := by
          simp
          omega
        have hpos2 : i + ((c :: t).length - (plusRun (c :: t)).2.length) +
            (plusRun (c :: t)).2.length = i + (c :: t).length := by
          omega
        simp only [hpos]
        rw [← hpos2]
        split
        · rw [ih _ rest _ fx s hrlen hbp hba]
        · split
          all_goals {
            cases hemit : emit_add_cell _ s with
            | error e => simp [Except.bind]
            | ok s3 =>
              dsimp only [Except.bind]
              rw [ih _ rest _ fx s3 hrlen hbp hba]
              try rfl
          }
      · by_cases har : c = '>' ∨ c = '<'
        · have hpr := arrowRun_append (a := c :: t) hba
          have hrlen : (arrowRun (c :: t)).2.length ≤ n := by
            have := arrowRun_cons_lt (t := t) har
            omega
          have hrle : (arrowRun (c :: t)).2.length ≤ (c :: t).length :=
            arrowRun_snd_length _
          have hcons : (c :: t) ++ rest = c :: (t ++ rest) := by simp
          rw [hcons, compileLoop_ar hpm har, compileLoop_ar hpm har (t := t)]
          have hpr2 : arrowRun (c :: (t ++ rest)) = ((arrowRun (c :: t)).1,
              (arrowRun (c :: t)).2 ++ rest) := by
            rw [← hpr]
            rfl
          rw [hpr2]
          have hpos : (c :: (t ++ rest)).length -
              ((arrowRun (c :: t)).2 ++ rest).length =
              (c :: t).length - (arrowRun (c :: t)).2.length := by
            simp
            omega
          have hpos2 : i + ((c :: t).length - (arrowRun (c :: t)).2.length) +
              (arrowRun (c :: t)).2.length = i + (c :: t).length := by
            omega
          simp only [hpos]
          rw [← hpos2]
          split
          · rw [ih _ rest _ fx s hrlen hbp hba]
          · cases hemit : emit_move_ptr _ s with
            | error e => simp [Except.bind]
            | ok s3 =>
              dsimp only [Except.bind]
              rw [ih _ rest _ fx s3 hrlen hbp hba]
              try rfl
        · have hpos3 : i + 1 + t.length = i + (c :: t).length := by
            simp
            omega
          by_cases hdot : c = '.'
          · subst hdot
            show compileLoop pc gc ('.' :: (t ++ rest)) i fx s = _
            rw [compileLoop_putc, compileLoop_putc, ← hpos3]
            cases hemit : emit_putchar pc s with
            | error e => simp [Except.bind]
            | ok s3 =>
              dsimp only [Except.bind]
              rw [ih _ rest _ fx s3 hlt hbp hba]
              try rfl
          · by_cases hcom : c = ','
            · subst hcom
              show compileLoop pc gc (',' :: (t ++ rest)) i fx s = _
              rw [compileLoop_getc, compileLoop_getc, ← hpos3]
              cases hemit : emit_getchar gc s with
              | error e => simp [Except.bind]
              | ok s3 =>
                dsimp only [Except.bind]
                rw [ih _ rest _ fx s3 hlt hbp hba]
                try rfl
            · by_cases hob : c = '['
              · subst hob
                show compileLoop pc gc ('[' :: (t ++ rest)) i fx s = _
                rw [compileLoop_open, compileLoop_open, ← hpos3]
                cases hemit : emit_loop_open s with
                | error e => simp [Except.bind]
                | ok fs3 =>
                  dsimp only [Except.bind]
                  rw [ih _ rest _ (fs3.1 :: fx) fs3.2 hlt hbp hba]
                  try rfl
              · by_cases hcb : c = ']'
                · subst hcb
                  show compileLoop pc gc (']' :: (t ++ rest)) i fx s = _
                  rw [compileLoop_closeStep, compileLoop_closeStep, ← hpos3]
                  cases hfx : fx with
                  | nil => simp [List.isEmpty, Except.bind]
                  | cons fh ft =>
                    simp only [List.isEmpty, List.headD, List.tail]
                    cases hemit : emit_loop_close fh s with
                    | error e => simp [Except.bind]
                    | ok s3 =>
                      dsimp only [Except.bind]
                      rw [ih _ rest _ ft s3 hlt hbp hba]
                      try rfl
                · show compileLoop pc gc (c :: (t ++ rest)) i fx s = _
                  rw [compileLoop_other hpm har hdot hcom hob hcb,
                    compileLoop_other hpm har hdot hcom hob hcb, ← hpos3,
                    ih _ rest _ fx s hlt hbp hba]

theorem take_append_len {α : Type} (a : List α) (r : List α) (p : Nat) :
    (a ++ r).take (a.length + p) = a ++ r.take p := by
  induction a with
  | nil => simp
  | cons x xs ih => simp [List.take_succ_cons, Nat.succ_add, ih]

/-- The stack-shape lemma: if the prefix balance of the remaining source
never drops below the number of stack entries that sit above fx, then the
entries of fx are never popped, and on success the final stack consists of
the bottom part fx under a segment whose size is the starting size plus the
net bracket balance. -/
theorem compileLoop_stack {pc gc : Nat} :
    ∀ n (l : List Char) (i : Nat) (g fx : List Nat) (s : St) (out : List Nat × St),
      l.length ≤ n →
      compileLoop pc gc l i (g ++ fx) s = .ok out →
      (∀ p, p ≤ l.length → -(g.length : Int) ≤ specBal (l.take p)) →
      ∃ g2, out.1 = g2 ++ fx ∧ (g2.length : Int) = (g.length : Int) + specBal l := by
  intro n
  induction n with
  | zero =>
    intro l i g fx s out hlen h hbal
    have hl : l = [] := List.length_eq_zero.mp (Nat.le_zero.mp hlen)
    subst hl
    rw [compileLoop_nil] at h
    cases h
    exact ⟨g, rfl, by simp [specBal]⟩
  | succ n ih =>
    intro l i g fx s out hlen h hbal
    cases l with
    | nil =>
      rw [compileLoop_nil] at h
      cases h
      exact ⟨g, rfl, by simp [specBal]⟩
    | cons c t =>
      have hlt : t.length ≤ n := by simpa using hlen
      by_cases hpm : c = '+' ∨ c = '-'
      · rw [compileLoop_pm hpm] at h
        obtain ⟨a, ha1, ha2, _⟩ := plusRun_decomp (c :: t)
        have hba : specBal a = 0 := specBal_pm ha2
        have hbl : specBal (c :: t) = specBal (plusRun (c :: t)).2 := by
          conv_lhs => rw [ha1]
          rw [specBal_append, hba]
          ring
        have hrlen : (plusRun (c :: t)).2.length ≤ n := by
          have := plusRun_cons_lt (t := t) hpm
          omega
        have hbal2 : ∀ p, p ≤ (plusRun (c :: t)).2.length →
            -(g.length : Int) ≤ specBal ((plusRun (c :: t)).2.take p) := by
          intro p hp
          have := hbal (a.length + p) (by
            rw [ha1]
            simp
            omega)
          rw [ha1, take_append_len, specBal_append, hba] at this
          omega
        rw [hbl]
        split at h
        · exact ih _ _ g fx _ _ hrlen h hbal2
        · split at h
          all_goals {
            cases hemit : emit_add_cell _ s with
            | error e => rw [hemit] at h; simp [Except.bind] at h
            | ok s3 =>
              rw [hemit] at h
              dsimp only [Except.bind] at h
              exact ih _ _ g fx _ _ hrlen h hbal2
          }
      · by_cases har : c = '>' ∨ c = '<'
        · rw [compileLoop_ar hpm har] at h
          obtain ⟨a, ha1, ha2, _⟩ := arrowRun_decomp (c :: t)
          have hba : specBal a = 0 := specBal_ar ha2
          have hbl : specBal (c :: t) = specBal (arrowRun (c :: t)).2 := by
            conv_lhs => rw [ha1]
            rw [specBal_append, hba]
            ring
          have hrlen : (arrowRun (c :: t)).2.length ≤ n := by
            have := arrowRun_cons_lt (t := t) har
            omega
          have hbal2 : ∀ p, p ≤ (arrowRun (c :: t)).2.length →
              -(g.length : Int) ≤ specBal ((arrowRun (c :: t)).2.take p) := by
            intro p hp
            have := hbal (a.length + p) (by
              rw [ha1]
              simp
              omega)
            rw [ha1, take_append_len, specBal_append, hba] at this
            omega
          rw [hbl]
          split at h
          · exact ih _ _ g fx _ _ hrlen h hbal2
          · cases hemit : emit_move_ptr _ s with
            | error e => rw [hemit] at h; simp [Except.bind] at h
            | ok s3 =>
              rw [hemit] at h
              dsimp only [Except.bind] at h
              exact ih _ _ g fx _ _ hrlen h hbal2
        · have hbalt : ∀ d : Int, bdelta c = d →
              ∀ p, p ≤ t.length → -(g.length : Int) - d ≤ specBal (t.take p) := by
            intro d hd p hp
            have := hbal (p + 1) (by simp; omega)
            rw [List.take_succ_cons, specBal_cons, hd] at this
            omega
          by_cases hdot : c = '.'
          · subst hdot
            rw [compileLoop_putc] at h
            cases hemit : emit_putchar pc s with
            | error e => rw [hemit] at h; simp [Except.bind] at h
            | ok s3 =>
              rw [hemit] at h
              dsimp only [Except.bind] at h
              obtain ⟨g2, h1, h2⟩ := ih _ _ g fx _ _ hlt h (by
                have := hbalt 0 (by decide)
                simpa using this)
              exact ⟨g2, h1, by rw [h2, specBal_cons]; simp [bdelta]⟩
          · by_cases hcom : c = ','
            · subst hcom
              rw [compileLoop_getc] at h
              cases hemit : emit_getchar gc s with
              | error e => rw [hemit] at h; simp [Except.bind] at h
              | ok s3 =>
                rw [hemit] at h
                dsimp only [Except.bind] at h
                obtain ⟨g2, h1, h2⟩ := ih _ _ g fx _ _ hlt h (by
                  have := hbalt 0 (by decide)
                  simpa using this)
                exact ⟨g2, h1, by rw [h2, specBal_cons]; simp [bdelta]⟩
            · by_cases hob : c = '['
              · subst hob
                rw [compileLoop_open] at h
                cases hemit : emit_loop_open s with
                | error e => rw [hemit] at h; simp [Except.bind] at h
                | ok fs3 =>
                  rw [hemit] at h
                  dsimp only [Except.bind] at h
                  rw [show fs3.1 :: (g ++ fx) = (fs3.1 :: g) ++ fx from rfl] at h
                  obtain ⟨g2, h1, h2⟩ := ih _ _ (fs3.1 :: g) fx _ _ hlt h (by
                    have := hbalt 1 (by decide)
                    intro p hp
                    have := this p hp
                    simp only [List.length_cons]
                    push_cast
                    omega)
                  refine ⟨g2, h1, ?_⟩
                  rw [h2, specBal_cons]
                  simp only [List.length_cons, bdelta]
                  push_cast
                  ring
              · by_cases hcb : c = ']'
                · subst hcb
                  rw [compileLoop_closeStep] at h
                  cases hg : g with
                  | nil =>
                    exfalso
                    have := hbal 1 (by simp)
                    rw [List.take_succ_cons] at this
                    simp [hg, specBal_cons, specBal, bdelta] at this
                  | cons gh gt =>
                    subst hg
                    rw [show (gh :: gt) ++ fx = gh :: (gt ++ fx) from rfl] at h
                    simp only [List.isEmpty, List.headD, List.tail] at h
                    cases hemit : emit_loop_close gh s with
                    | error e => rw [hemit] at h; simp [Except.bind] at h
                    | ok s3 =>
                      rw [hemit] at h
                      dsimp only [Except.bind] at h
                      obtain ⟨g2, h1, h2⟩ := ih _ _ gt fx _ _ hlt h (by
                        have := hbalt (-1) (by decide)
                        intro p hp
                        have := this p hp
                        simp only [List.length_cons] at *
                        push_cast at *
                        omega)
                      refine ⟨g2, h1, ?_⟩
                      rw [h2, specBal_cons]
                      simp only [List.length_cons, bdelta]
                      push_cast
                      ring
                · rw [compileLoop_other hpm har hdot hcom hob hcb] at h
                  have hbd : bdelta c = 0 := by
                    unfold bdelta
                    rw [if_neg hob, if_neg hcb]
                  obtain ⟨g2, h1, h2⟩ := ih _ _ g fx _ _ hlt h (by
                    have := hbalt 0 hbd
                    simpa using this)
                  exact ⟨g2, h1, by rw [h2, specBal_cons, hbd]; ring⟩

theorem emit_prologue_empty : emit_prologue ⟨[]⟩ = .ok ⟨prologueBytes⟩ := by
  rfl

theorem StackOK_nil (s : St) : StackOK [] s :=
  fun f hf => absurd hf (List.not_mem_nil f)

/-- C1: Loop fixups are exact.  For a matched bracket pair in a compiled
script (the part S between the shown brackets is balanced), the forward
rel32 displacement patched into the je of the loop-open lands exactly on
the first byte after the matching loop-close block (which starts at the
close cmp and is 11 bytes long), and the backward rel32 displacement of the
jne of the loop-close lands exactly on the first byte of the cmp of the
loop-open.  Both displacements are decoded relative to the address
immediately after the 4-byte displacement field (open block starts at
sA.code.length, its displacement field at sA.code.length + 7; close block
starts at sCl.code.length). -/
theorem C1_loop_fixups_exact (pc gc : Nat) (A S B : List Char) (out : St)
    (hS1 : ∀ p, p ≤ S.length → 0 ≤ specBal (S.take p))
    (hS2 : specBal S = 0)
    (hval : validate (A ++ ('[' :: (S ++ (']' :: B)))) = .ok ())
    (hok : compile pc gc (A ++ ('[' :: (S ++ (']' :: B)))) = .ok out) :
    ∃ fxA sA f sOp sCl,
      compileLoop pc gc A 0 [] ⟨prologueBytes⟩ = .ok (fxA, sA) ∧
      emit_loop_open sA = .ok (f, sOp) ∧
      f = sA.code.length + 7 ∧
      compileLoop pc gc S (A.length + 1) (f :: fxA) sOp = .ok (f :: fxA, sCl) ∧
      ((sA.code.length + 11 : Int) + toInt32 (readU32 out.code (sA.code.length + 7)) =
        (sCl.code.length : Int) + 11) ∧
      ((sCl.code.length + 11 : Int) + toInt32 (readU32 out.code (sCl.code.length + 7)) =
        (sA.code.length : Int)) := by
  clear hval
  unfold compile at hok
  rw [emit_prologue_empty] at hok
  dsimp only at hok
  rw [compileLoop_append A.length A ('[' :: (S ++ (']' :: B))) 0 []
    ⟨prologueBytes⟩ le_rfl rfl rfl] at hok
  cases hA : compileLoop pc gc A 0 [] ⟨prologueBytes⟩ with
  | error e => rw [hA] at hok; exact Except.noConfusion hok
  | ok outA =>
    obtain ⟨fxA, sA⟩ := outA
    rw [hA] at hok
    dsimp only [Except.bind] at hok
    simp only [Nat.zero_add] at hok
    rw [compileLoop_open] at hok
    cases hop : emit_loop_open sA with
    | error e => rw [hop] at hok; exact Except.noConfusion hok
    | ok fs =>
      obtain ⟨f, sOp⟩ := fs
      rw [hop] at hok
      dsimp only [Except.bind] at hok
      rw [compileLoop_append S.length S (']' :: B) (A.length + 1) (f :: fxA)
        sOp le_rfl rfl rfl] at hok
      cases hS : compileLoop pc gc S (A.length + 1) (f :: fxA) sOp with
      | error e => rw [hS] at hok; exact Except.noConfusion hok
      | ok outS =>
        obtain ⟨fxS, sCl⟩ := outS
        rw [hS] at hok
        dsimp only [Except.bind] at hok
        have hstk := compileLoop_stack S.length S (A.length + 1) [] (f :: fxA)
          sOp (fxS, sCl) le_rfl (by simpa using hS) (by simpa using hS1)
        obtain ⟨g2, hg2, hg2l⟩ := hstk
        have hg2nil : g2 = [] := by
          have h0 : (g2.length : Int) = 0 := by
            rw [hg2l, hS2]
            simp
          apply List.length_eq_zero.mp
          exact_mod_cast h0
        subst hg2nil
        simp only [List.nil_append] at hg2
        subst hg2
        rw [compileLoop_closeStep] at hok
        simp only [List.isEmpty, List.headD, List.tail] at hok
        cases hemit : emit_loop_close f sCl with
        | error e => rw [hemit] at hok; simp [Except.bind] at hok
        | ok s3 =>
          rw [hemit] at hok
          dsimp only [Except.bind] at hok
          cases hB : compileLoop pc gc B (A.length + 1 + S.length + 1) fxA s3 with
          | error e => rw [hB] at hok; exact Except.noConfusion hok
          | ok outB =>
            obtain ⟨fxE, sE⟩ := outB
            rw [hB] at hok
            have hepi := emit_bytes_ok hok
            obtain ⟨hoc, -, -⟩ := hepi
            obtain ⟨hmonoA, hstkA, -⟩ := compileLoop_frame A.length A 0 []
              ⟨prologueBytes⟩ fxA sA le_rfl hA (StackOK_nil _)
            obtain ⟨hfval, hopc, hopl, hopcs⟩ := emit_loop_open_ok hop
            have hstkOp : StackOK (f :: fxA) sOp := by
              intro g hg
              rcases List.mem_cons.mp hg with hg | hg
              · omega
              · exact le_trans (hstkA g hg) (by omega)
            obtain ⟨hmonoS, hstkS, -⟩ := compileLoop_frame S.length S
              (A.length + 1) (f :: fxA) sOp (f :: fxA) sCl le_rfl hS hstkOp
            have hf4 : f + 4 ≤ sCl.code.length := by
              have := hstkS f (by simp)
              omega
            obtain ⟨hl3, hcs3, hrd1, hrd2, -⟩ := emit_loop_close_disp hemit hf4
            have hstk3 : StackOK fxA s3 := by
              intro g hg
              have := hstkS g (by simp [hg])
              omega
            obtain ⟨hmonoB, -, hfrB⟩ := compileLoop_frame B.length B
              (A.length + 1 + S.length + 1) fxA s3 fxE sE le_rfl hB hstk3
            have hw1 : readU32 sE.code f = readU32 s3.code f := by
              apply hfrB
              · omega
              · intro g hg
                right
                have := hstkA g hg
                omega
            have hw2 : readU32 sE.code (sCl.code.length + 7) =
                readU32 s3.code (sCl.code.length + 7) := by
              apply hfrB
              · omega
              · intro g hg
                right
                have := hstkA g hg
                omega
            have hwo1 : readU32 out.code f = readU32 s3.code f := by
              rw [hoc, readU32_append (by omega), hw1]
            have hwo2 : readU32 out.code (sCl.code.length + 7) =
                readU32 s3.code (sCl.code.length + 7) := by
              rw [hoc, readU32_append (by omega), hw2]
            refine ⟨fxA, sA, f, sOp, sCl, rfl, hop, hfval, hS, ?_, ?_⟩
            · rw [← hfval, hwo1, hrd1, toInt32_u32ofInt (by push_cast; omega)
                (by
                  have hcs : CODE_SIZE = 1048576 := rfl
                  push_cast
                  omega)]
              push_cast
              omega
            · rw [hwo2, hrd2, toInt32_u32ofInt
                (by
                  have hcs : CODE_SIZE = 1048576 := rfl
                  push_cast
                  omega)
                (by push_cast; omega)]
              push_cast
              omega

/-- A fuel-indexed, structurally recursive copy of the compile loop, used
only to evaluate the compiler on concrete scripts inside the kernel (the
well-founded recursion of compileLoop does not reduce definitionally).
When the fuel is at least the length of the source the two agree
(compileLoopF_eq below); the fuel-exhausted case is unreachable then. -/
def compileLoopF (pc gc : Nat) : Nat → List Char → Nat → List Nat → St →
    Except Err (List Nat × St)
  | _, [], _, fixups, s => .ok (fixups, s)
  | 0, _ :: _, _, fixups, s => .ok (fixups, s)
  | fuel + 1, c :: t, i, fixups, s =>
    if c = '+' ∨ c = '-' then
      if clampDelta (plusRun (c :: t)).1 = 0 then
        compileLoopF pc gc fuel (plusRun (c :: t)).2
          (i + ((c :: t).length - (plusRun (c :: t)).2.length)) fixups s
      else if clampDelta (plusRun (c :: t)).1 ≤ 128 then
        (emit_add_cell (clampDelta (plusRun (c :: t)).1) s).bind fun s =>
          compileLoopF pc gc fuel (plusRun (c :: t)).2
            (i + ((c :: t).length - (plusRun (c :: t)).2.length)) fixups s
      else
        (emit_add_cell (clampDelta (plusRun (c :: t)).1 - 256) s).bind fun s =>
          compileLoopF pc gc fuel (plusRun (c :: t)).2
            (i + ((c :: t).length - (plusRun (c :: t)).2.length)) fixups s
    else if c = '>' ∨ c = '<' then
      if (arrowRun (c :: t)).1 = 0 then
        compileLoopF pc gc fuel (arrowRun (c :: t)).2
          (i + ((c :: t).length - (arrowRun (c :: t)).2.length)) fixups s
      else
        (emit_move_ptr ((arrowRun (c :: t)).1) s).bind fun s =>
          compileLoopF pc gc fuel (arrowRun (c :: t)).2
            (i + ((c :: t).length - (arrowRun (c :: t)).2.length)) fixups s
    else if c = '.' then
      (emit_putchar pc s).bind fun s => compileLoopF pc gc fuel t (i + 1) fixups s
    else if c = ',' then
      (emit_getchar gc s).bind fun s => compileLoopF pc gc fuel t (i + 1) fixups s
    else if c = '[' then
      (emit_loop_open s).bind fun fs =>
        compileLoopF pc gc fuel t (i + 1) (fs.1 :: fixups) fs.2
    else if c = ']' then
      if fixups.isEmpty then .error (.unmatchedClose i)
      else
        (emit_loop_close (fixups.headD 0) s).bind fun s =>
          compileLoopF pc gc fuel t (i + 1) fixups.tail s
    else
      compileLoopF pc gc fuel t (i + 1) fixups s

theorem compileLoopF_eq (pc gc : Nat) :
    ∀ (fuel : Nat) (l : List Char) (i : Nat) (fx : List Nat) (s : St),
      l.length ≤ fuel →
      compileLoopF pc gc fuel l i fx s = compileLoop pc gc l i fx s := by
  intro fuel
  induction fuel with
  | zero =>
    intro l i fx s hlen
    have hl : l = [] := List.length_eq_zero.mp (Nat.le_zero.mp hlen)
    subst hl
    rw [compileLoop_nil]
    rfl
  | succ n ih =>
    intro l i fx s hlen
    cases l with
    | nil => rw [compileLoop_nil]; rfl
    | cons c t =>
      have hlt : t.length ≤ n := by simpa using hlen
      by_cases hpm : c = '+' ∨ c = '-'
      · rw [compileLoopF, compileLoop_pm hpm, if_pos hpm]
        have hrlen : (plusRun (c :: t)).2.length ≤ n := by
          have := plusRun_cons_lt (t := t) hpm
          omega
        split
        · exact ih _ _ fx s hrlen
        · split
          all_goals {
            cases hemit : emit_add_cell _ s with
            | error e => rfl
            | ok s3 =>
              dsimp only [Except.bind]
              exact ih _ _ fx s3 hrlen
          }
      · by_cases har : c = '>' ∨ c = '<'
        · rw [compileLoopF, compileLoop_ar hpm har, if_neg hpm, if_pos har]
          have hrlen : (arrowRun (c :: t)).2.length ≤ n := by
            have := arrowRun_cons_lt (t := t) har
            omega
          split
          · exact ih _ _ fx s hrlen
          · cases hemit : emit_move_ptr _ s with
            | error e => rfl
            | ok s3 =>
              dsimp only [Except.bind]
              exact ih _ _ fx s3 hrlen
        · by_cases hdot : c = '.'
          · subst hdot
            rw [compileLoopF, compileLoop_putc]
            rw [if_neg (by decide), if_neg (by decide), if_pos rfl]
            cases hemit : emit_putchar pc s with
            | error e => rfl
            | ok s3 =>
              dsimp only [Except.bind]
              exact ih _ _ fx s3 hlt
          · by_cases hcom : c = ','
            · subst hcom
              rw [compileLoopF, compileLoop_getc]
              rw [if_neg (by decide), if_neg (by decide), if_neg (by decide),
                if_pos rfl]
              cases hemit : emit_getchar gc s with
              | error e => rfl
              | ok s3 =>
                dsimp only [Except.bind]
                exact ih _ _ fx s3 hlt
            · by_cases hob : c = '['
              · subst hob
                rw [compileLoopF, compileLoop_open]
                rw [if_neg (by decide), if_neg (by decide), if_neg (by decide),
                  if_neg (by decide), if_pos rfl]
                cases hemit : emit_loop_open s with
                | error e => rfl
                | ok fs3 =>
                  dsimp only [Except.bind]
                  exact ih _ _ (fs3.1 :: fx) fs3.2 hlt
              · by_cases hcb : c = ']'
                · subst hcb
                  rw [compileLoopF, compileLoop_closeStep]
                  rw [if_neg (by decide), if_neg (by decide), if_neg (by decide),
                    if_neg (by decide), if_neg (by decide), if_pos rfl]
                  cases hfx : fx with
                  | nil => rfl
                  | cons fh ft =>
                    simp only [List.isEmpty, List.headD, List.tail]
                    cases hemit : emit_loop_close fh s with
                    | error e => rfl
                    | ok s3 =>
                      dsimp only [Except.bind]
                      exact ih _ _ ft s3 hlt
                · rw [compileLoopF, compileLoop_other hpm har hdot hcom hob hcb]
                  rw [if_neg hpm, if_neg har, if_neg hdot, if_neg hcom,
                    if_neg hob, if_neg hcb]
                  exact ih _ _ fx s hlt

/-- The kernel-evaluable form of compile. -/
def compileF (pc gc : Nat) (src : List Char) : Except Err St :=
  match emit_prologue ⟨[]⟩ with
  | .error e => .error e
  | .ok s =>
    match compileLoopF pc gc src.length src 0 [] s with
    | .error e => .error e
    | .ok (_, s) => emit_epilogue s

theorem compile_eq_compileF (pc gc : Nat) (src : List Char) :
    compile pc gc src = compileF pc gc src := by
  unfold compile compileF
  rw [emit_prologue_empty]
  dsimp only
  rw [compileLoopF_eq pc gc src.length src 0 [] ⟨prologueBytes⟩ le_rfl]

deriving instance DecidableEq for Except

/-- C1 witness: the theorem applied to the two-character script of one
open and one close bracket, compiled at putchar/getchar address 0. -/
theorem C1_loop_fixups_exact_witness :
    ∃ fxA sA f sOp sCl,
      compileLoop 0 0 [] 0 [] ⟨prologueBytes⟩ = .ok (fxA, sA) ∧
      emit_loop_open sA = .ok (f, sOp) ∧
      f = sA.code.length + 7 ∧
      compileLoop 0 0 [] (List.length ([] : List Char) + 1) (f :: fxA) sOp =
        .ok (f :: fxA, sCl) ∧
      ((sA.code.length + 11 : Int) + toInt32 (readU32 (St.mk
        [0x55, 0x48, 0x89, 0xe5, 0x41, 0x54, 0x41, 0x55, 0x49, 0x89, 0xfc,
         0x45, 0x31, 0xed, 0x43, 0x80, 0x3c, 0x2c, 0x00, 0x0f, 0x84, 11, 0,
         0, 0, 0x43, 0x80, 0x3c, 0x2c, 0x00, 0x0f, 0x85, 234, 255, 255, 255,
         0x41, 0x5d, 0x41, 0x5c, 0x5d, 0xc3]).code (sA.code.length + 7)) =
        (sCl.code.length : Int) + 11) ∧
      ((sCl.code.length + 11 : Int) + toInt32 (readU32 (St.mk
        [0x55, 0x48, 0x89, 0xe5, 0x41, 0x54, 0x41, 0x55, 0x49, 0x89, 0xfc,
         0x45, 0x31, 0xed, 0x43, 0x80, 0x3c, 0x2c, 0x00, 0x0f, 0x84, 11, 0,
         0, 0, 0x43, 0x80, 0x3c, 0x2c, 0x00, 0x0f, 0x85, 234, 255, 255, 255,
         0x41, 0x5d, 0x41, 0x5c, 0x5d, 0xc3]).code (sCl.code.length + 7)) =
        (sA.code.length : Int)) :=
  C1_loop_fixups_exact 0 0 [] [] []
    (St.mk
      [0x55, 0x48, 0x89, 0xe5, 0x41, 0x54, 0x41, 0x55, 0x49, 0x89, 0xfc,
       0x45, 0x31, 0xed, 0x43, 0x80, 0x3c, 0x2c, 0x00, 0x0f, 0x84, 11, 0,
       0, 0, 0x43, 0x80, 0x3c, 0x2c, 0x00, 0x0f, 0x85, 234, 255, 255, 255,
       0x41, 0x5d, 0x41, 0x5c, 0x5d, 0xc3])
    (by decide) rfl (by rfl)
    (by rw [compile_eq_compileF]; rfl)

/-- C6 counterexample: the script of a single open bracket reaches the end
of the source with a non-empty fixup stack (it holds the offset 21), yet
compile emits the epilogue and reports success instead of failing. -/
theorem C6_counterexample :
    compileLoop 0 0 ['['] 0 [] ⟨prologueBytes⟩ =
      .ok ([21], ⟨prologueBytes ++ openBytes⟩) ∧
    compile 0 0 ['['] = .ok ⟨(prologueBytes ++ openBytes) ++ epilogueBytes⟩ := by
  constructor
  · rw [← compileLoopF_eq 0 0 1 ['['] 0 [] ⟨prologueBytes⟩ (by decide)]
    rfl
  · rw [compile_eq_compileF]
    rfl

/-- C6 (amended): the compiler makes no end-of-source fixup-stack check.
Whenever the main loop completes (with an empty stack or not) compile
proceeds to emit the epilogue and reports its result — success unless the
epilogue itself overflows the buffer.  The only defensive stack check is at
a loop close: a close with an empty stack is a fatal error naming its
position. -/
theorem C6_amended_no_final_stack_check :
    (∀ pc gc src fx2 s2,
      compileLoop pc gc src 0 [] ⟨prologueBytes⟩ = .ok (fx2, s2) →
      compile pc gc src = emit_epilogue s2) ∧
    (∀ pc gc i (rest : List Char) (s : St),
      compileLoop pc gc (']' :: rest) i [] s = .error (.unmatchedClose i)) := by
  constructor
  · intro pc gc src fx2 s2 h
    unfold compile
    rw [emit_prologue_empty]
    dsimp only
    rw [h]
  · intro pc gc i rest s
    rw [compileLoop_closeStep]
    rfl

/-- C6 amended witness: for the single-open script the loop ends with the
non-empty stack and compile still succeeds with the epilogue appended; a
close with an empty stack fails naming its position. -/
theorem C6_amended_witness :
    compile 0 0 ['['] = emit_epilogue ⟨prologueBytes ++ openBytes⟩ ∧
    compileLoop 0 0 [']'] 5 [] ⟨prologueBytes⟩ = .error (.unmatchedClose 5) :=
  ⟨C6_amended_no_final_stack_check.1 0 0 ['['] [21] ⟨prologueBytes ++ openBytes⟩
    (by rw [← compileLoopF_eq 0 0 1 ['['] 0 [] ⟨prologueBytes⟩ (by decide)]; rfl),
   C6_amended_no_final_stack_check.2 0 0 5 [] ⟨prologueBytes⟩⟩

/-! Validator lemmas. -/

theorem noUnder_cons_iff (c : Char) (t : List Char) (d : Int) (hd : 0 ≤ d) :
    (∀ p, p ≤ (c :: t).length → 0 ≤ d + specBal ((c :: t).take p)) ↔
      (∀ p, p ≤ t.length → 0 ≤ (d + bdelta c) + specBal (t.take p)) := by
  constructor
  · intro H p hp
    have := H (p + 1) (by simp; omega)
    rw [List.take_succ_cons, specBal_cons] at this
    omega
  · intro H p hp
    cases p with
    | zero => simpa [specBal] using hd
    | succ p =>
      have := H p (by simp at hp; omega)
      rw [List.take_succ_cons, specBal_cons]
      omega

theorem validateGo_ok_iff :
    ∀ (l : List Char) (i : Nat) (d md : Int) (fu : Nat), 0 ≤ d →
      (validateGo l i d md fu = .ok () ↔
        ((∀ p, p ≤ l.length → 0 ≤ d + specBal (l.take p)) ∧
          d + specBal l = 0 ∧ mdFold d md l ≤ 256)) := by
  intro l
  induction l with
  | nil =>
    intro i d md fu hd
    unfold validateGo
    constructor
    · intro h
      split at h
      · exact Except.noConfusion h
      · split at h
        · exact Except.noConfusion h
        · rename_i h1 h2
          have hmn : (MAX_NESTING : Int) = 256 := rfl
          refine ⟨fun p _ => ?_, ?_, ?_⟩
          · have hz : specBal (List.take p ([] : List Char)) = 0 := by
              simp [specBal]
            omega
          · simp [specBal]
            omega
          · simp only [mdFold]
            omega
    · intro ⟨h1, h2, h3⟩
      have hmn : (MAX_NESTING : Int) = 256 := rfl
      have hd0 : d = 0 := by
        simp [specBal] at h2
        omega
      have h3md : md ≤ 256 := by simpa [mdFold] using h3
      rw [if_neg (by omega), if_neg (by omega)]
  | cons c t ih =>
    intro i d md fu hd
    by_cases hob : c = '['
    · subst hob
      show validateGo ('[' :: t) i d md fu = .ok () ↔ _
      unfold validateGo
      rw [if_pos rfl]
      rw [ih (i + 1) (d + 1) (max md (d + 1)) _ (by omega)]
      have hsh := noUnder_cons_iff '[' t d hd
      have hbd : bdelta '[' = 1 := by decide
      rw [hbd] at hsh
      constructor
      · intro ⟨h1, h2, h3⟩
        refine ⟨hsh.mpr h1, ?_, ?_⟩
        · rw [specBal_cons, hbd]
          omega
        · simpa [mdFold] using h3
      · intro ⟨h1, h2, h3⟩
        refine ⟨hsh.mp h1, ?_, ?_⟩
        · rw [specBal_cons, hbd] at h2
          omega
        · simpa [mdFold] using h3
    · by_cases hcb : c = ']'
      · subst hcb
        show validateGo (']' :: t) i d md fu = .ok () ↔ _
        unfold validateGo
        rw [if_neg (by decide), if_pos rfl]
        have hbd : bdelta ']' = -1 := by decide
        by_cases hd0 : d = 0
        · rw [if_pos hd0]
          constructor
          · intro h
            exact Except.noConfusion h
          · intro ⟨h1, h2, h3⟩
            exfalso
            have := h1 1 (by simp)
            rw [List.take_succ_cons, specBal_cons, hbd] at this
            simp [specBal] at this
            omega
        · rw [if_neg hd0]
          rw [ih (i + 1) (d - 1) md _ (by omega)]
          have hsh := noUnder_cons_iff ']' t d hd
          rw [hbd] at hsh
          constructor
          · intro ⟨h1, h2, h3⟩
            refine ⟨hsh.mpr (by
              intro p hp
              have := h1 p hp
              omega), ?_, ?_⟩
            · rw [specBal_cons, hbd]
              omega
            · simpa [mdFold] using h3
          · intro ⟨h1, h2, h3⟩
            refine ⟨?_, ?_, ?_⟩
            · intro p hp
              have := hsh.mp h1 p hp
              omega
            · rw [specBal_cons, hbd] at h2
              omega
            · simpa [mdFold] using h3
      · show validateGo (c :: t) i d md fu = .ok () ↔ _
        unfold validateGo
        rw [if_neg hob, if_neg hcb]
        have hbd : bdelta c = 0 := by
          unfold bdelta
          rw [if_neg hob, if_neg hcb]
        rw [ih (i + 1) d md _ hd]
        have hsh := noUnder_cons_iff c t d hd
        rw [hbd] at hsh
        constructor
        · intro ⟨h1, h2, h3⟩
          refine ⟨hsh.mpr (by simpa using h1), ?_, ?_⟩
          · rw [specBal_cons, hbd]
            omega
          · simp only [mdFold]
            rw [if_neg hob, if_neg hcb]
            exact h3
        · intro ⟨h1, h2, h3⟩
          refine ⟨by simpa using hsh.mp h1, ?_, ?_⟩
          · rw [specBal_cons, hbd] at h2
            omega
          · simp only [mdFold] at h3
            rw [if_neg hob, if_neg hcb] at h3
            exact h3

theorem validateGo_close :
    ∀ (l : List Char) (p : Nat) (i : Nat) (d md : Int) (fu : Nat) (P : Nat),
      0 ≤ d →
      l[p]? = some ']' →
      d + specBal (l.take p) = 0 →
      (∀ q, q ≤ p → 0 ≤ d + specBal (l.take q)) →
      P = i + p →
      validateGo l i d md fu = .error (.unmatchedClose P) := by
  intro l
  induction l with
  | nil =>
    intro p i d md fu P hd hp
    simp at hp
  | cons c t ih =>
    intro p i d md fu P hd hp hbalp hno hP
    cases p with
    | zero =>
      simp at hp
      subst hp
      have hd0 : d = 0 := by
        simpa [specBal] using hbalp
      unfold validateGo
      rw [if_neg (by decide), if_pos rfl, if_pos hd0, hP]
      rfl
    | succ p =>
      simp only [List.getElem?_cons_succ] at hp
      have hbalp2 : (d + bdelta c) + specBal (t.take p) = 0 := by
        rw [List.take_succ_cons, specBal_cons] at hbalp
        omega
      have hno2 : ∀ q, q ≤ p → 0 ≤ (d + bdelta c) + specBal (t.take q) := by
        intro q hq
        have := hno (q + 1) (by omega)
        rw [List.take_succ_cons, specBal_cons] at this
        omega
      have hdnext : 0 ≤ d + bdelta c := by
        have := hno2 0 (by omega)
        simpa [specBal] using this
      have hP2 : P = (i + 1) + p := by omega
      by_cases hob : c = '['
      · subst hob
        have hbd : bdelta '[' = 1 := by decide
        rw [hbd] at hbalp2 hno2 hdnext
        unfold validateGo
        rw [if_pos rfl]
        show validateGo t (i + 1) (d + 1) (max md (d + 1))
          (if d = 0 then i else fu) = _
        exact ih p (i + 1) (d + 1) _ _ P (by omega) hp hbalp2 hno2 hP2
      · by_cases hcb : c = ']'
        · subst hcb
          have hbd : bdelta ']' = -1 := by decide
          rw [hbd] at hbalp2 hno2 hdnext
          have hdne : ¬d = 0 := by omega
          unfold validateGo
          rw [if_neg (by decide), if_pos rfl, if_neg hdne]
          exact ih p (i + 1) (d - 1) _ _ P (by omega) hp hbalp2 hno2 hP2
        · have hbd : bdelta c = 0 := by
            unfold bdelta
            rw [if_neg hob, if_neg hcb]
          rw [hbd] at hbalp2 hno2
          unfold validateGo
          rw [if_neg hob, if_neg hcb]
          exact ih p (i + 1) d _ _ P (by omega) hp (by simpa using hbalp2)
            (by simpa using hno2) hP2

theorem validateGo_openTail :
    ∀ (l : List Char) (i : Nat) (d md : Int) (fu : Nat) (D : Int),
      (∀ q, q ≤ l.length → 1 ≤ d + specBal (l.take q)) →
      D = d + specBal l →
      validateGo l i d md fu = .error (.unmatchedOpen fu D) := by
  intro l
  induction l with
  | nil =>
    intro i d md fu D h hD
    have := h 0 (by simp)
    simp [specBal] at this
    have hD0 : D = d := by
      simp [specBal] at hD
      omega
    unfold validateGo
    rw [if_pos (by omega), hD0]
  | cons c t ih =>
    intro i d md fu D h hD
    have hd1 : 1 ≤ d := by
      have := h 0 (by simp)
      simpa [specBal] using this
    have hsh : ∀ q, q ≤ t.length → 1 ≤ (d + bdelta c) + specBal (t.take q) := by
      intro q hq
      have := h (q + 1) (by simp; omega)
      rw [List.take_succ_cons, specBal_cons] at this
      omega
    have hD2 : D = (d + bdelta c) + specBal t := by
      rw [hD, specBal_cons]
      ring
    by_cases hob : c = '['
    · subst hob
      have hbd : bdelta '[' = 1 := by decide
      rw [hbd] at hsh hD2
      unfold validateGo
      rw [if_pos rfl]
      show validateGo t (i + 1) (d + 1) (max md (d + 1))
        (if d = 0 then i else fu) = _
      rw [if_neg (by omega)]
      exact ih (i + 1) (d + 1) _ fu D hsh hD2
    · by_cases hcb : c = ']'
      · subst hcb
        have hbd : bdelta ']' = -1 := by decide
        rw [hbd] at hsh hD2
        unfold validateGo
        rw [if_neg (by decide), if_pos rfl, if_neg (by omega)]
        exact ih (i + 1) (d - 1) md fu D (by
          intro q hq
          have := hsh q hq
          omega) (by rw [hD2]; ring)
      · have hbd : bdelta c = 0 := by
          unfold bdelta
          rw [if_neg hob, if_neg hcb]
        rw [hbd] at hsh hD2
        unfold validateGo
        rw [if_neg hob, if_neg hcb]
        exact ih (i + 1) d md fu D (by simpa using hsh) (by rw [hD2]; ring)

theorem validateGo_open :
    ∀ (l : List Char) (p : Nat) (i : Nat) (d md : Int) (fu : Nat)
      (P : Nat) (D : Int), 0 ≤ d →
      l[p]? = some '[' →
      d + specBal (l.take p) = 0 →
      (∀ q, q ≤ p → 0 ≤ d + specBal (l.take q)) →
      (∀ q, p < q → q ≤ l.length → 1 ≤ d + specBal (l.take q)) →
      P = i + p →
      D = d + specBal l →
      validateGo l i d md fu = .error (.unmatchedOpen P D) := by
  intro l
  induction l with
  | nil =>
    intro p i d md fu P D hd hp
    simp at hp
  | cons c t ih =>
    intro p i d md fu P D hd hp hbalp hno hafter hP hD
    cases p with
    | zero =>
      simp at hp
      subst hp
      have hd0 : d = 0 := by simpa [specBal] using hbalp
      subst hd0
      unfold validateGo
      rw [if_pos rfl]
      show validateGo t (i + 1) (0 + 1) (max md (0 + 1))
        (if (0 : Int) = 0 then i else fu) = _
      rw [if_pos rfl]
      rw [show P = i from by omega]
      refine validateGo_openTail t (i + 1) (0 + 1) _ i D ?_ ?_
      · intro q hq
        have := hafter (q + 1) (by omega) (by simp; omega)
        rw [List.take_succ_cons, specBal_cons] at this
        have hbd : bdelta '[' = 1 := by decide
        rw [hbd] at this
        omega
      · rw [hD, specBal_cons]
        have hbd : bdelta '[' = 1 := by decide
        rw [hbd]
        ring
    | succ p =>
      simp only [List.getElem?_cons_succ] at hp
      have hbalp2 : (d + bdelta c) + specBal (t.take p) = 0 := by
        rw [List.take_succ_cons, specBal_cons] at hbalp
        omega
      have hno2 : ∀ q, q ≤ p → 0 ≤ (d + bdelta c) + specBal (t.take q) := by
        intro q hq
        have := hno (q + 1) (by omega)
        rw [List.take_succ_cons, specBal_cons] at this
        omega
      have hafter2 : ∀ q, p < q → q ≤ t.length →
          1 ≤ (d + bdelta c) + specBal (t.take q) := by
        intro q hq1 hq2
        have := hafter (q + 1) (by omega) (by simp; omega)
        rw [List.take_succ_cons, specBal_cons] at this
        omega
      have hdnext : 0 ≤ d + bdelta c := by
        have := hno2 0 (by omega)
        simpa [specBal] using this
      have hP2 : P = (i + 1) + p := by omega
      have hD2 : D = (d + bdelta c) + specBal t := by
        rw [hD, specBal_cons]
        ring
      by_cases hob : c = '['
      · subst hob
        have hbd : bdelta '[' = 1 := by decide
        rw [hbd] at hbalp2 hno2 hafter2 hdnext hD2
        unfold validateGo
        rw [if_pos rfl]
        show validateGo t (i + 1) (d + 1) (max md (d + 1))
          (if d = 0 then i else fu) = _
        exact ih p (i + 1) (d + 1) _ _ P D (by omega) hp hbalp2 hno2 hafter2
          hP2 hD2
      · by_cases hcb : c = ']'
        · subst hcb
          have hbd : bdelta ']' = -1 := by decide
          rw [hbd] at hbalp2 hno2 hafter2 hdnext hD2
          have hdne : ¬d = 0 := by omega
          unfold validateGo
          rw [if_neg (by decide), if_pos rfl, if_neg hdne]
          exact ih p (i + 1) (d - 1) _ _ P D (by omega) hp hbalp2 hno2 hafter2
            hP2 hD2
        · have hbd : bdelta c = 0 := by
            unfold bdelta
            rw [if_neg hob, if_neg hcb]
          rw [hbd] at hbalp2 hno2 hafter2 hD2
          unfold validateGo
          rw [if_neg hob, if_neg hcb]
          exact ih p (i + 1) d _ _ P D (by omega) hp (by simpa using hbalp2)
            (by simpa using hno2) (by simpa using hafter2) hP2
            (by rw [hD2]; ring)

theorem validateGo_tooDeep :
    ∀ (l : List Char) (i : Nat) (d md : Int) (fu : Nat) (M : Int), 0 ≤ d →
      (∀ p, p ≤ l.length → 0 ≤ d + specBal (l.take p)) →
      d + specBal l = 0 →
      257 ≤ M →
      M = mdFold d md l →
      validateGo l i d md fu = .error (.tooDeep M) := by
  intro l
  induction l with
  | nil =>
    intro i d md fu M hd hno hbal h257 hM
    have hd0 : d = 0 := by
      simpa [specBal] using hbal
    have hmn : (MAX_NESTING : Int) = 256 := rfl
    simp only [mdFold] at hM
    unfold validateGo
    rw [if_neg (by omega), if_pos (by omega), hM]
  | cons c t ih =>
    intro i d md fu M hd hno hbal h257 hM
    have hsh := (noUnder_cons_iff c t d hd).mp hno
    have hbal2 : (d + bdelta c) + specBal t = 0 := by
      rw [specBal_cons] at hbal
      omega
    by_cases hob : c = '['
    · subst hob
      have hbd : bdelta '[' = 1 := by decide
      rw [hbd] at hsh hbal2
      have hM2 : M = mdFold (d + 1) (max md (d + 1)) t := by
        rw [hM]
        simp [mdFold]
      unfold validateGo
      rw [if_pos rfl]
      show validateGo t (i + 1) (d + 1) (max md (d + 1))
        (if d = 0 then i else fu) = _
      exact ih (i + 1) (d + 1) _ _ M (by omega) hsh hbal2 h257 hM2
    · by_cases hcb : c = ']'
      · subst hcb
        have hbd : bdelta ']' = -1 := by decide
        rw [hbd] at hsh hbal2
        have hd1 : 1 ≤ d := by
          have := hsh 0 (by simp)
          simp [specBal] at this
          omega
        have hM2 : M = mdFold (d - 1) md t := by
          rw [hM]
          simp [mdFold]
        unfold validateGo
        rw [if_neg (by decide), if_pos rfl, if_neg (by omega)]
        exact ih (i + 1) (d - 1) _ _ M (by omega) hsh hbal2 h257 hM2
      · have hbd : bdelta c = 0 := by
          unfold bdelta
          rw [if_neg hob, if_neg hcb]
        rw [hbd] at hsh hbal2
        have hM2 : M = mdFold d md t := by
          rw [hM]
          simp only [mdFold]
          rw [if_neg hob, if_neg hcb]
        unfold validateGo
        rw [if_neg hob, if_neg hcb]
        exact ih (i + 1) d _ _ M hd (by simpa using hsh) (by simpa using hbal2)
          h257 hM2

theorem mdFold_le {K : Int} :
    ∀ (l : List Char) (d md : Int), md ≤ K →
      (∀ p, p ≤ l.length → d + specBal (l.take p) ≤ K) →
      mdFold d md l ≤ K := by
  intro l
  induction l with
  | nil =>
    intro d md hmd _
    simpa [mdFold] using hmd
  | cons c t ih =>
    intro d md hmd hno
    have hsh : ∀ p, p ≤ t.length → (d + bdelta c) + specBal (t.take p) ≤ K := by
      intro p hp
      have := hno (p + 1) (by simp; omega)
      rw [List.take_succ_cons, specBal_cons] at this
      omega
    by_cases hob : c = '['
    · subst hob
      have hbd : bdelta '[' = 1 := by decide
      rw [hbd] at hsh
      have h1 : d + 1 ≤ K := by
        have := hno 1 (by simp)
        rw [List.take_succ_cons] at this
        simp [specBal_cons, specBal, bdelta] at this
        omega
      simp only [mdFold, if_pos rfl]
      exact ih (d + 1) _ (by omega) hsh
    · by_cases hcb : c = ']'
      · subst hcb
        have hbd : bdelta ']' = -1 := by decide
        rw [hbd] at hsh
        have hmf : mdFold d md (']' :: t) = mdFold (d - 1) md t := by
          simp [mdFold]
        rw [hmf]
        exact ih (d - 1) _ hmd (by
          intro p hp
          have := hsh p hp
          omega)
      · have hbd : bdelta c = 0 := by
          unfold bdelta
          rw [if_neg hob, if_neg hcb]
        rw [hbd] at hsh
        simp only [mdFold]
        rw [if_neg hob, if_neg hcb]
        exact ih d _ hmd (by simpa using hsh)

theorem le_mdFold : ∀ (l : List Char) (d md : Int), md ≤ mdFold d md l := by
  intro l
  induction l with
  | nil => intro d md; simp [mdFold]
  | cons c t ih =>
    intro d md
    by_cases hob : c = '['
    · subst hob
      simp only [mdFold, if_pos rfl]
      exact le_trans (le_max_left md (d + 1)) (ih (d + 1) (max md (d + 1)))
    · by_cases hcb : c = ']'
      · subst hcb
        have hmf : mdFold d md (']' :: t) = mdFold (d - 1) md t := by
          simp [mdFold]
        rw [hmf]
        exact ih (d - 1) md
      · simp only [mdFold]
        rw [if_neg hob, if_neg hcb]
        exact ih d md

theorem mdFold_ge_open :
    ∀ (l : List Char) (p : Nat) (d md : Int), l[p]? = some '[' →
      d + specBal (l.take (p + 1)) ≤ mdFold d md l := by
  intro l
  induction l with
  | nil => intro p d md hp; simp at hp
  | cons c t ih =>
    intro p d md hp
    cases p with
    | zero =>
      simp at hp
      subst hp
      rw [List.take_succ_cons]
      simp only [List.take_zero, mdFold, if_pos rfl]
      have h1 : d + specBal ['['] = d + 1 := by
        simp [specBal, bdelta]
      rw [h1]
      exact le_trans (le_max_right md (d + 1)) (le_mdFold t (d + 1) _)
    | succ p =>
      simp only [List.getElem?_cons_succ] at hp
      rw [List.take_succ_cons, specBal_cons]
      by_cases hob : c = '['
      · subst hob
        have hbd : bdelta '[' = 1 := by decide
        rw [hbd]
        have hmf : mdFold d md ('[' :: t) = mdFold (d + 1) (max md (d + 1)) t := by
          simp [mdFold]
        rw [hmf]
        have := ih p (d + 1) (max md (d + 1)) hp
        omega
      · by_cases hcb : c = ']'
        · subst hcb
          have hbd : bdelta ']' = -1 := by decide
          rw [hbd]
          have hmf : mdFold d md (']' :: t) = mdFold (d - 1) md t := by
            simp [mdFold]
          rw [hmf]
          have := ih p (d - 1) md hp
          omega
        · have hbd : bdelta c = 0 := by
            unfold bdelta
            rw [if_neg hob, if_neg hcb]
          rw [hbd]
          simp only [mdFold]
          rw [if_neg hob, if_neg hcb]
          have := ih p d md hp
          omega

theorem open_before_peak :
    ∀ (p : Nat) (l : List Char) (B : Int), 0 < B → B ≤ specBal (l.take p) →
      ∃ q, l[q]? = some '[' ∧ B ≤ specBal (l.take (q + 1)) := by
  intro p
  induction p with
  | zero =>
    intro l B hB hle
    exfalso
    simp [specBal] at hle
    omega
  | succ p ih =>
    intro l B hB hle
    by_cases hp : p < l.length
    · have hsplit : l.take (p + 1) = l.take p ++ l[p]?.toList := List.take_succ
      obtain ⟨cp, hcp⟩ : ∃ cp, l[p]? = some cp := by
        exact ⟨l[p], List.getElem?_eq_getElem hp⟩
      rw [hsplit, hcp] at hle
      simp only [Option.toList_some] at hle
      rw [specBal_append] at hle
      by_cases hob : cp = '['
      · subst hob
        exact ⟨p, hcp, by rw [hsplit, hcp]; simpa [specBal_append] using hle⟩
      · have hbd : specBal [cp] ≤ 0 := by
          simp [specBal, bdelta]
          rw [if_neg hob]
          split <;> omega
        exact ih l B hB (by omega)
    · have : l.take (p + 1) = l.take p := by
        rw [List.take_of_length_le (by omega), List.take_of_length_le (by omega)]
      rw [this] at hle
      exact ih l B hB hle

/-!
A model of main: argument parsing, resource acquisition, the validate →
mmap → compile → mprotect → execute → munmap pipeline, and every exit path,
as a trace of events.  Environment outcomes that depend on the OS (mmap,
mprotect, file reads) are fields of Env.  The verbose-mode printing is
observational only and not modelled; the realloc-failure exit inside the
verbose log is likewise outside this model.
-/

/-- Observable events of one program run, in order. -/
inductive Ev where
  | usageMsg
  | errMissingEArg
  | errUnknownOpt
  | errBoth
  | errRead
  | errValidate
  | errMmapCode
  | errMmapTape
  | errMprotect
  | mmapCode (prot : Nat)
  | mmapTape (prot : Nat)
  | compileWrites
  | errCompile (pos : Nat)
  | overflowExit (used need : Nat)
  | vlogReallocExit
  | mprotectCode (prot : Nat)
  | callEntry
  | munmapTape
  | munmapCode
deriving DecidableEq, Repr

/-- The environment of one invocation: the argument vector and the
outcomes of the OS interactions. -/
structure Env where
  argv : List String
  fileOk : Bool
  fileData : List Char
  mmapCodeOk : Bool
  mmapTapeOk : Bool
  mprotectOk : Bool
  reallocOk : Bool
  putcharAddr : Nat
  getcharAddr : Nat

/-- Outcome of the argument-parsing loop of main. -/
inductive ParseOut where
  | missingEArg
  | unknownOpt (a : String)
  | done (inline_code : Option String) (filename : Option String) (verbose : Bool)
deriving DecidableEq

/-- The test argv[i][0] == the option-introducing dash. -/
def startsDash (a : String) : Bool :=
  match a.data with
  | '-' :: _ => true
  | _ => false

/-- The argument-parsing loop of main: -v sets verbose, -e consumes the
next argument as the inline script (error if absent), any other option is
unknown, anything else overwrites the filename. -/
def parseArgsGo : List String → Option String → Option String → Bool → ParseOut
  | [], ic, fn, v => .done ic fn v
  | a :: t, ic, fn, v =>
    if a = "-v" then parseArgsGo t ic fn true
    else if a = "-e" then
      match t with
      | [] => .missingEArg
      | x :: t2 => parseArgsGo t2 (some x) fn v
    else if startsDash a then .unknownOpt a
    else parseArgsGo t ic (some a) v

/-- The source text main will compile, when it gets that far: the inline
literal, or the file contents if the read succeeds. -/
def mainSource (env : Env) : Option (List Char) :=
  match parseArgsGo env.argv none none false with
  | .done (some s) none _ => some s.data
  | .done none (some _) _ => if env.fileOk then some env.fileData else none
  | _ => none

/-- One run of main, as exit code and event trace.  Mirrors the control
flow of the C function: parse, obtain source, validate, mmap code (RW),
mmap tape (RW), compile (all emission and patching happens here; a buffer
overflow calls exit(1) from check_space without any cleanup, and in
verbose mode a realloc failure inside vlog_push — first reached at the
very first emitted chunk, the prologue — also calls exit(1) without any
cleanup), mprotect the code to RX, call the entry point, munmap tape then
code, exit 0. -/
def mainModel (env : Env) : Nat × List Ev :=
  match parseArgsGo env.argv none none false with
  | .missingEArg => (1, [.errMissingEArg, .usageMsg])
  | .unknownOpt _ => (1, [.errUnknownOpt, .usageMsg])
  | .done ic fn v =>
    match ic, fn with
    | none, none => (1, [.usageMsg])
    | some _, some _ => (1, [.errBoth])
    | _, _ =>
      match mainSource env with
      | none => (1, [.errRead])
      | some src =>
        match validate src with
        | .error _ => (1, [.errValidate])
        | .ok _ =>
          if !env.mmapCodeOk then (1, [.errMmapCode])
          else if !env.mmapTapeOk then
            (1, [.mmapCode (PROT_READ ||| PROT_WRITE), .errMmapTape, .munmapCode])
          else if v && !env.reallocOk then
            (1, [.mmapCode (PROT_READ ||| PROT_WRITE),
                 .mmapTape (PROT_READ ||| PROT_WRITE),
                 .compileWrites, .vlogReallocExit])
          else
            match compile env.putcharAddr env.getcharAddr src with
            | .error (.overflow u n) =>
              (1, [.mmapCode (PROT_READ ||| PROT_WRITE),
                   .mmapTape (PROT_READ ||| PROT_WRITE),
                   .compileWrites, .overflowExit u n])
            | .error (.unmatchedClose p) =>
              (1, [.mmapCode (PROT_READ ||| PROT_WRITE),
                   .mmapTape (PROT_READ ||| PROT_WRITE),
                   .compileWrites, .errCompile p, .munmapTape, .munmapCode])
            | .ok _ =>
              if !env.mprotectOk then
                (1, [.mmapCode (PROT_READ ||| PROT_WRITE),
                     .mmapTape (PROT_READ ||| PROT_WRITE),
                     .compileWrites, .errMprotect, .munmapTape, .munmapCode])
              else
                (0, [.mmapCode (PROT_READ ||| PROT_WRITE),
                     .mmapTape (PROT_READ ||| PROT_WRITE),
                     .compileWrites, .mprotectCode (PROT_READ ||| PROT_EXEC),
                     .callEntry, .munmapTape, .munmapCode])

/-- The events relevant to the W^X ordering property. -/
def isKeyEv : Ev → Bool
  | .compileWrites => true
  | .mprotectCode _ => true
  | .callEntry => true
  | _ => false

/-- Classification of every possible run of main: its exit code and trace
take one of twelve shapes; every shape that acquires memory or emits code
is conditional on the validator having accepted the source. -/
theorem mainModel_cases (env : Env) :
    mainModel env = (1, [.errMissingEArg, .usageMsg]) ∨
    mainModel env = (1, [.errUnknownOpt, .usageMsg]) ∨
    mainModel env = (1, [.usageMsg]) ∨
    mainModel env = (1, [.errBoth]) ∨
    mainModel env = (1, [.errRead]) ∨
    mainModel env = (1, [.errValidate]) ∨
    (∃ src, mainSource env = some src ∧ validate src = .ok () ∧
      (mainModel env = (1, [.errMmapCode]) ∨
       mainModel env = (1, [.mmapCode (PROT_READ ||| PROT_WRITE), .errMmapTape,
         .munmapCode]) ∨
       mainModel env = (1, [.mmapCode (PROT_READ ||| PROT_WRITE),
         .mmapTape (PROT_READ ||| PROT_WRITE), .compileWrites,
         .vlogReallocExit]) ∨
       (∃ u n, compile env.putcharAddr env.getcharAddr src =
          .error (.overflow u n) ∧
        mainModel env = (1, [.mmapCode (PROT_READ ||| PROT_WRITE),
          .mmapTape (PROT_READ ||| PROT_WRITE), .compileWrites,
          .overflowExit u n])) ∨
       (∃ p, compile env.putcharAddr env.getcharAddr src =
          .error (.unmatchedClose p) ∧
        mainModel env = (1, [.mmapCode (PROT_READ ||| PROT_WRITE),
          .mmapTape (PROT_READ ||| PROT_WRITE), .compileWrites,
          .errCompile p, .munmapTape, .munmapCode])) ∨
       mainModel env = (1, [.mmapCode (PROT_READ ||| PROT_WRITE),
         .mmapTape (PROT_READ ||| PROT_WRITE), .compileWrites, .errMprotect,
         .munmapTape, .munmapCode]) ∨
       mainModel env = (0, [.mmapCode (PROT_READ ||| PROT_WRITE),
         .mmapTape (PROT_READ ||| PROT_WRITE), .compileWrites,
         .mprotectCode (PROT_READ ||| PROT_EXEC), .callEntry, .munmapTape,
         .munmapCode]))) := by
  unfold mainModel
  split
  · exact Or.inl rfl
  · exact Or.inr (Or.inl rfl)
  · split
    · exact Or.inr (Or.inr (Or.inl rfl))
    · exact Or.inr (Or.inr (Or.inr (Or.inl rfl)))
    · split
      · exact Or.inr (Or.inr (Or.inr (Or.inr (Or.inl rfl))))
      · rename_i src hsrc
        split
        · exact Or.inr (Or.inr (Or.inr (Or.inr (Or.inr (Or.inl rfl)))))
        · rename_i u hval
          cases u
          refine Or.inr (Or.inr (Or.inr (Or.inr (Or.inr (Or.inr
            ⟨src, hsrc, hval, ?_⟩)))))
          split
          · exact Or.inl rfl
          · split
            · exact Or.inr (Or.inl rfl)
            · split
              · exact Or.inr (Or.inr (Or.inl rfl))
              · split
                · rename_i uu nn hcmp
                  exact Or.inr (Or.inr (Or.inr (Or.inl ⟨uu, nn, hcmp, rfl⟩)))
                · rename_i pp hcmp
                  exact Or.inr (Or.inr (Or.inr (Or.inr (Or.inl ⟨pp, hcmp, rfl⟩))))
                · split
                  · exact Or.inr (Or.inr (Or.inr (Or.inr (Or.inr (Or.inl rfl)))))
                  · exact Or.inr (Or.inr (Or.inr (Or.inr (Or.inr (Or.inr rfl)))))

/-- C4: the W^X discipline of main.  Every mapping of the code region is
readable+writable (never executable), the single permission change is to
readable+executable (never writable), so no protection value ever has the
write bit and the execute bit together; the filtered key-event trace shows
that all code-region writes (emission and patching, the compileWrites
event) happen before the permission flip, that the flip happens at most
once, and that the entry point is called only after exactly one flip, with
no write after it. -/
theorem C4_wx_invariant (env : Env) :
    (∀ p, Ev.mmapCode p ∈ (mainModel env).2 → p = PROT_READ ||| PROT_WRITE) ∧
    (∀ p, Ev.mprotectCode p ∈ (mainModel env).2 → p = PROT_READ ||| PROT_EXEC) ∧
    (∀ p, (Ev.mmapCode p ∈ (mainModel env).2 ∨
        Ev.mprotectCode p ∈ (mainModel env).2) →
      p &&& PROT_WRITE = 0 ∨ p &&& PROT_EXEC = 0) ∧
    ((mainModel env).2.filter isKeyEv = [] ∨
      (mainModel env).2.filter isKeyEv = [.compileWrites] ∨
      (mainModel env).2.filter isKeyEv =
        [.compileWrites, .mprotectCode (PROT_READ ||| PROT_EXEC), .callEntry]) ∧
    (Ev.callEntry ∈ (mainModel env).2 →
      (mainModel env).2.filter isKeyEv =
        [.compileWrites, .mprotectCode (PROT_READ ||| PROT_EXEC), .callEntry]) := by
  rcases mainModel_cases env with h | h | h | h | h | h |
    ⟨src, hsrc, hval, h | h | h | ⟨u, n, hcmp, h⟩ | ⟨p, hcmp, h⟩ | h | h⟩ <;>
    rw [h] <;>
    refine ⟨?_, ?_, ?_, ?_, ?_⟩ <;>
    simp [isKeyEv, PROT_READ, PROT_WRITE, PROT_EXEC] <;> decide

/-- C4 witness: in a run that reaches execution, the protection value of
the single flip has no write bit, and the key-event trace is exactly
write-then-flip-then-call. -/
theorem C4_wx_invariant_witness :
    ((5 : Nat) &&& PROT_WRITE = 0 ∨ (5 : Nat) &&& PROT_EXEC = 0) ∧
    (mainModel ⟨["-e", "+"], true, [], true, true, true, true, 0, 0⟩).2.filter isKeyEv =
      [.compileWrites, .mprotectCode (PROT_READ ||| PROT_EXEC), .callEntry] := by
  have key : mainModel ⟨["-e", "+"], true, [], true, true, true, true, 0, 0⟩ =
      (0, [.mmapCode 3, .mmapTape 3, .compileWrites, .mprotectCode 5,
        .callEntry, .munmapTape, .munmapCode]) := by
    unfold mainModel
    simp only [compile_eq_compileF]
    rfl
  constructor
  · exact (C4_wx_invariant ⟨["-e", "+"], true, [], true, true, true, true, 0, 0⟩).2.2.1 5
      (Or.inr (by rw [key]; decide))
  · exact (C4_wx_invariant ⟨["-e", "+"], true, [], true, true, true, true, 0, 0⟩).2.2.2.2
      (by rw [key]; decide)

/-- C9 counterexample: invoked with both a source filename and an inline
literal, the program exits 1 printing only the both-given error — the
usage message is not printed in that case. -/
theorem C9_counterexample :
    mainModel ⟨["x.bf", "-e", "+"], true, [], true, true, true, true, 0, 0⟩ =
      (1, [.errBoth]) ∧
    Ev.usageMsg ∉
      (mainModel ⟨["x.bf", "-e", "+"], true, [], true, true, true, true, 0, 0⟩).2 := by
  have hm : mainModel ⟨["x.bf", "-e", "+"], true, [], true, true, true, true, 0, 0⟩ =
      (1, [.errBoth]) := by
    unfold mainModel
    rw [(by decide : parseArgsGo ["x.bf", "-e", "+"] none none false =
      .done (some "+") (some "x.bf") false)]
  rw [hm]
  exact ⟨rfl, by decide⟩

/-- C9 amended: when argument parsing yields both an inline literal and a
filename, main exits 1 with the conflict error only, without the usage
message; when it yields neither, main exits 1 and prints exactly the usage
message. -/
theorem C9_usage_only_when_neither (env : Env) :
    (∀ ic fn v, parseArgsGo env.argv none none false = .done (some ic) (some fn) v →
      (mainModel env).1 = 1 ∧ (mainModel env).2 = [.errBoth] ∧
        Ev.usageMsg ∉ (mainModel env).2) ∧
    (∀ v, parseArgsGo env.argv none none false = .done none none v →
      mainModel env = (1, [.usageMsg])) := by
  constructor
  · intro ic fn v h
    have hm : mainModel env = (1, [.errBoth]) := by
      unfold mainModel; rw [h]
    rw [hm]
    exact ⟨rfl, rfl, by decide⟩
  · intro v h
    unfold mainModel; rw [h]

/-- C9 witness: the two argument shapes at concrete argument vectors. -/
theorem C9_usage_only_when_neither_witness :
    (mainModel ⟨["a.bf", "-e", "b"], true, [], true, true, true, true, 0, 0⟩).2 =
      [.errBoth] ∧
    mainModel ⟨["-v"], true, [], true, true, true, true, 0, 0⟩ = (1, [.usageMsg]) :=
  ⟨((C9_usage_only_when_neither ⟨["a.bf", "-e", "b"], true, [], true, true, true,
      true, 0, 0⟩).1 "b" "a.bf" false (by decide)).2.1,
   (C9_usage_only_when_neither ⟨["-v"], true, [], true, true, true, true, 0, 0⟩).2
      true (by decide)⟩

/-- C5: behaviour of the bracket validator.  It accepts every balanced
script (no prefix closes more than it has opened, total balance zero)
whose nesting depth never exceeds 256; it rejects a script whose first
underflowing close sits at position p with unmatchedClose p; it rejects a
script with a lone unmatched open at position p (prefix balance zero
there, strictly positive ever after) with unmatchedOpen naming p; it
rejects every balanced script whose depth reaches 257 with tooDeep; and
whenever a run of main maps the code region or performs any emission, the
source had already passed the validator. -/
theorem C5_validator_behavior (l : List Char) :
    ((∀ p, p ≤ l.length → 0 ≤ specBal (l.take p)) → specBal l = 0 →
      (∀ p, p ≤ l.length → specBal (l.take p) ≤ 256) →
      validate l = .ok ()) ∧
    (∀ p, l[p]? = some ']' → specBal (l.take p) = 0 →
      (∀ q, q ≤ p → 0 ≤ specBal (l.take q)) →
      validate l = .error (.unmatchedClose p)) ∧
    (∀ p, l[p]? = some '[' → specBal (l.take p) = 0 →
      (∀ q, q ≤ p → 0 ≤ specBal (l.take q)) →
      (∀ q, p < q → q ≤ l.length → 1 ≤ specBal (l.take q)) →
      validate l = .error (.unmatchedOpen p (specBal l))) ∧
    ((∀ p, p ≤ l.length → 0 ≤ specBal (l.take p)) → specBal l = 0 →
      (∃ p, p ≤ l.length ∧ 257 ≤ specBal (l.take p)) →
      ∃ M, 257 ≤ M ∧ validate l = .error (.tooDeep M)) ∧
    (∀ env, mainSource env = some l →
      ((∃ q, Ev.mmapCode q ∈ (mainModel env).2) ∨
        Ev.compileWrites ∈ (mainModel env).2) →
      validate l = .ok ()) := by
  refine ⟨?_, ?_, ?_, ?_, ?_⟩
  · intro h1 h2 h3
    exact (validateGo_ok_iff l 0 0 0 0 le_rfl).mpr
      ⟨fun p hp => by simpa using h1 p hp, by simpa using h2,
        mdFold_le l 0 0 (by norm_num) (fun p hp => by simpa using h3 p hp)⟩
  · intro p hp hbal hno
    exact validateGo_close l p 0 0 0 0 p le_rfl hp (by simpa using hbal)
      (fun q hq => by simpa using hno q hq) (by omega)
  · intro p hp hbal hno hpos
    exact validateGo_open l p 0 0 0 0 p (specBal l) le_rfl hp
      (by simpa using hbal) (fun q hq => by simpa using hno q hq)
      (fun q hq1 hq2 => by simpa using hpos q hq1 hq2) (by omega) (by omega)
  · intro h1 h2 h3
    obtain ⟨p, hp, h257⟩ := h3
    obtain ⟨q, hq, hge⟩ := open_before_peak p l 257 (by norm_num) h257
    have hmd : 257 ≤ mdFold 0 0 l := by
      have := mdFold_ge_open l q 0 0 hq
      omega
    exact ⟨mdFold 0 0 l, hmd,
      validateGo_tooDeep l 0 0 0 0 (mdFold 0 0 l) le_rfl
        (fun p hp => by simpa using h1 p hp) (by simpa using h2) hmd rfl⟩
  · intro env hsrc hmem
    rcases mainModel_cases env with h | h | h | h | h | h |
      ⟨src, hsrc2, hval, _⟩
    all_goals try (exfalso; rw [h] at hmem; simp at hmem)
    have : src = l := by rw [hsrc] at hsrc2; exact ((Option.some.injEq _ _).mp hsrc2).symm
    rwa [this] at hval

theorem specBal_replicate_open (n : Nat) : specBal (List.replicate n '[') = n := by
  induction n with
  | zero => simp [specBal]
  | succ n ih => rw [List.replicate_succ, specBal_cons, ih]; simp [bdelta]; ring

theorem specBal_replicate_close (n : Nat) :
    specBal (List.replicate n ']') = -(n : Int) := by
  induction n with
  | zero => simp [specBal]
  | succ n ih => rw [List.replicate_succ, specBal_cons, ih]; simp [bdelta]

theorem nestBal (p : Nat) :
    specBal ((List.replicate 256 '[' ++ List.replicate 256 ']').take p) =
      ((min p 256 : Nat) : Int) - ((min (p - 256) 256 : Nat) : Int) := by
  rw [List.take_append_eq_append_take, specBal_append, List.take_replicate,
    List.take_replicate, List.length_replicate, specBal_replicate_open,
    specBal_replicate_close]
  ring

/-- C5 witness: the boundary script of 256 nested loops is accepted. -/
theorem C5_validator_behavior_witness :
    validate (List.replicate 256 '[' ++ List.replicate 256 ']') = .ok () :=
  (C5_validator_behavior (List.replicate 256 '[' ++ List.replicate 256 ']')).1
    (fun p _ => by rw [nestBal]; omega)
    (by
      rw [specBal_append, specBal_replicate_open, specBal_replicate_close]
      norm_num)
    (fun p _ => by rw [nestBal]; omega)

theorem clampDelta_eq_emod (d : Int) : clampDelta d = d % 256 := by
  have hlow : -256 < d.tmod 256 := by
    rcases d with m | m
    · exact lt_of_lt_of_le (by norm_num) (Int.tmod_nonneg _ (Int.ofNat_nonneg m))
    · have h : (Int.negSucc m).tmod 256 = -(((m + 1) % 256 : Nat) : Int) := rfl
      rw [h]
      have := Nat.mod_lt (m + 1) (show 0 < 256 by norm_num)
      omega
  have h1 : (d.tmod 256 + 256).tmod 256 = (d.tmod 256 + 256) % 256 :=
    Int.tmod_eq_emod (by omega) (by norm_num)
  have h2 : (d.tmod 256 + 256) % 256 = d.tmod 256 % 256 := by
    have h : d.tmod 256 + 256 = d.tmod 256 + 256 * 1 := by ring
    rw [h, Int.add_mul_emod_self_left]
  have h3 : d.tmod 256 % 256 = d % 256 := by
    rw [Int.tmod_def]
    have h : d - 256 * d.tdiv 256 = d + -(256 * d.tdiv 256) := by ring
    rw [h, Int.add_neg_mul_emod_self_left]
  rw [clampDelta, h1, h2, h3]

/-- C10: a maximal cell-operator run whose net delta is 0 modulo 256, and
a maximal pointer-operator run whose net delta is exactly 0, emit no
machine code: the compile loop continues past the run with the code buffer
untouched.  In particular the two-character scripts plus-minus and
right-left compile to exactly the fixed prologue followed by the
epilogue, at every pair of library addresses. -/
theorem C10_zero_net_runs_emit_nothing :
    (∀ pc gc (c : Char) (t : List Char) i fx (s : St), (c = '+' ∨ c = '-') →
      (plusRun (c :: t)).1 % 256 = 0 →
      compileLoop pc gc (c :: t) i fx s =
        compileLoop pc gc (plusRun (c :: t)).2
          (i + ((c :: t).length - (plusRun (c :: t)).2.length)) fx s) ∧
    (∀ pc gc (c : Char) (t : List Char) i fx (s : St), ¬(c = '+' ∨ c = '-') →
      (c = '>' ∨ c = '<') → (arrowRun (c :: t)).1 = 0 →
      compileLoop pc gc (c :: t) i fx s =
        compileLoop pc gc (arrowRun (c :: t)).2
          (i + ((c :: t).length - (arrowRun (c :: t)).2.length)) fx s) ∧
    (∀ pc gc, compile pc gc ['+', '-'] = .ok ⟨prologueBytes ++ epilogueBytes⟩ ∧
      compile pc gc ['>', '<'] = .ok ⟨prologueBytes ++ epilogueBytes⟩) := by
  refine ⟨?_, ?_, ?_⟩
  · intro pc gc c t i fx s hc hz
    rw [compileLoop_pm hc]
    have h0 : clampDelta (plusRun (c :: t)).1 = 0 := by
      rw [clampDelta_eq_emod]; exact hz
    rw [if_pos h0]
  · intro pc gc c t i fx s h1 h2 hz
    rw [compileLoop_ar h1 h2]
    rw [if_pos hz]
  · intro pc gc
    constructor <;> (rw [compile_eq_compileF]; rfl)

/-- C10 witness: a four-character zero-net cell run is skipped without
emission, and the plus-minus script compiles to prologue plus epilogue. -/
theorem C10_zero_net_runs_emit_nothing_witness :
    compileLoop 0 0 ['+', '+', '-', '-'] 0 [] ⟨prologueBytes⟩ =
      compileLoop 0 0 (plusRun ['+', '+', '-', '-']).2
        (0 + (['+', '+', '-', '-'].length -
          (plusRun ['+', '+', '-', '-']).2.length)) [] ⟨prologueBytes⟩ ∧
    compile 0 0 ['+', '-'] = .ok ⟨prologueBytes ++ epilogueBytes⟩ :=
  ⟨C10_zero_net_runs_emit_nothing.1 0 0 '+' ['+', '-', '-'] 0 [] ⟨prologueBytes⟩
      (Or.inl rfl) (by decide),
   (C10_zero_net_runs_emit_nothing.2.2 0 0).1⟩

set_option maxRecDepth 8000 in
/-- C3 counterexample: compiling and running 130 plus characters does not
leave the cell at 2. -/
theorem C3_counterexample :
    execFinalCell 0 0 (List.replicate 130 '+') 10 ≠ some 2 := by
  have h : execFinalCell 0 0 (List.replicate 130 '+') 10 = some 130 := by
    unfold execFinalCell
    rw [compile_eq_compileF]
    decide
  rw [h]
  decide

set_option maxRecDepth 8000 in
/-- C3 amended: 130 increments on a zero cell leave the cell holding 130,
which agrees with the naive per-character 8-bit semantics (0 + 130 never
crosses 256, so no wraparound occurs); the claimed value 2 would be
128 + 130 - 256, not 0 + 130 mod 256. -/
theorem C3_amended_130_plus_gives_130 :
    execFinalCell 0 0 (List.replicate 130 '+') 10 =
      some (naiveCell (List.replicate 130 '+') 0) ∧
    naiveCell (List.replicate 130 '+') 0 = 130 := by
  constructor
  · unfold execFinalCell
    rw [compile_eq_compileF]
    decide
  · decide

theorem compileLoopF_addr_irrel (pc gc pc2 gc2 : Nat) :
    ∀ (fuel : Nat) (l : List Char) (i : Nat) (fx : List Nat) (s : St),
      '.' ∉ l → ',' ∉ l →
      compileLoopF pc gc fuel l i fx s = compileLoopF pc2 gc2 fuel l i fx s := by
  intro fuel
  induction fuel with
  | zero => intro l i fx s _ _; cases l <;> rfl
  | succ fuel ih =>
    intro l i fx s hdot hcomma
    cases l with
    | nil => rfl
    | cons c t =>
      have hdt : '.' ∉ t := fun hm => hdot (List.mem_cons_of_mem c hm)
      have hct : ',' ∉ t := fun hm => hcomma (List.mem_cons_of_mem c hm)
      simp only [compileLoopF]
      by_cases h1 : c = '+' ∨ c = '-'
      · obtain ⟨a, ha, _, _⟩ := plusRun_decomp (c :: t)
        have hsub : ∀ x, x ∈ (plusRun (c :: t)).2 → x ∈ c :: t := fun x hx => by
          rw [ha]; exact List.mem_append.mpr (Or.inr hx)
        have hd2 : '.' ∉ (plusRun (c :: t)).2 := fun hm => hdot (hsub _ hm)
        have hc2 : ',' ∉ (plusRun (c :: t)).2 := fun hm => hcomma (hsub _ hm)
        rw [if_pos h1, if_pos h1]
        split_ifs with h2 h3
        · exact ih _ _ _ _ hd2 hc2
        · cases emit_add_cell (clampDelta (plusRun (c :: t)).1) s with
          | error e => rfl
          | ok s2 => exact ih _ _ _ _ hd2 hc2
        · cases emit_add_cell (clampDelta (plusRun (c :: t)).1 - 256) s with
          | error e => rfl
          | ok s2 => exact ih _ _ _ _ hd2 hc2
      · rw [if_neg h1, if_neg h1]
        by_cases h2 : c = '>' ∨ c = '<'
        · obtain ⟨a, ha, _, _⟩ := arrowRun_decomp (c :: t)
          have hsub : ∀ x, x ∈ (arrowRun (c :: t)).2 → x ∈ c :: t := fun x hx => by
            rw [ha]; exact List.mem_append.mpr (Or.inr hx)
          have hd2 : '.' ∉ (arrowRun (c :: t)).2 := fun hm => hdot (hsub _ hm)
          have hc2 : ',' ∉ (arrowRun (c :: t)).2 := fun hm => hcomma (hsub _ hm)
          rw [if_pos h2, if_pos h2]
          split_ifs with h3
          · exact ih _ _ _ _ hd2 hc2
          · cases emit_move_ptr (arrowRun (c :: t)).1 s with
            | error e => rfl
            | ok s2 => exact ih _ _ _ _ hd2 hc2
        · rw [if_neg h2, if_neg h2]
          have hcd : ¬c = '.' := fun hc => hdot (hc ▸ List.mem_cons_self c t)
          have hcc : ¬c = ',' := fun hc => hcomma (hc ▸ List.mem_cons_self c t)
          rw [if_neg hcd, if_neg hcd, if_neg hcc, if_neg hcc]
          by_cases h3 : c = '['
          · rw [if_pos h3, if_pos h3]
            cases emit_loop_open s with
            | error e => rfl
            | ok fs => exact ih _ _ _ _ hdt hct
          · rw [if_neg h3, if_neg h3]
            by_cases h4 : c = ']'
            · rw [if_pos h4, if_pos h4]
              by_cases h5 : fx.isEmpty
              · rw [if_pos h5, if_pos h5]
              · rw [if_neg h5, if_neg h5]
                cases emit_loop_close (fx.headD 0) s with
                | error e => rfl
                | ok s2 => exact ih _ _ _ _ hdt hct
            · rw [if_neg h4, if_neg h4]
              exact ih _ _ _ _ hdt hct

/-- C7 counterexample: the byte at which the putchar address is embedded
differs between two invocations whose putchar was loaded at different
addresses, so the same one-character script compiles to different bytes. -/
theorem C7_counterexample : compile 1 0 ['.'] ≠ compile 2 0 ['.'] := by
  rw [compile_eq_compileF, compile_eq_compileF]
  decide

/-- C7 amended: the emitted code embeds the absolute addresses of putchar
and getchar as movabs immediates, so byte-identity across invocations holds
exactly for scripts free of the two IO characters: for those, the compile
result does not depend on the library addresses at all. -/
theorem C7_identical_without_io (pc gc pc2 gc2 : Nat) (src : List Char)
    (hdot : '.' ∉ src) (hcomma : ',' ∉ src) :
    compile pc gc src = compile pc2 gc2 src := by
  rw [compile_eq_compileF, compile_eq_compileF]
  unfold compileF
  rw [emit_prologue_empty]
  dsimp only
  rw [compileLoopF_addr_irrel pc gc pc2 gc2 src.length src 0 [] ⟨prologueBytes⟩
    hdot hcomma]

/-- C7 witness: an IO-free looping script compiles identically at two
different address pairs. -/
theorem C7_identical_without_io_witness :
    compile 1 2 ['+', '[', '-', ']'] = compile 3 4 ['+', '[', '-', ']'] :=
  C7_identical_without_io 1 2 3 4 ['+', '[', '-', ']'] (by decide) (by decide)

theorem emit_putchar_overflow {pc : Nat} {s : St}
    (h : CODE_SIZE < s.code.length + 17) :
    ∃ u n, emit_putchar pc s = .error (.overflow u n) := by
  simp only [emit_putchar, emit_bytes, emit_byte, emit_u64, check_space]
  by_cases h1 : s.code.length + [0x43, 0x0f, 0xb6, 0x3c, 0x2c].length > CODE_SIZE
  · rw [if_pos h1]; exact ⟨_, _, rfl⟩
  rw [if_neg h1]
  dsimp only
  by_cases h2 : (s.code ++ [0x43, 0x0f, 0xb6, 0x3c, 0x2c]).length + 1 > CODE_SIZE
  · rw [if_pos h2]; exact ⟨_, _, rfl⟩
  rw [if_neg h2]
  dsimp only
  by_cases h3 : (s.code ++ [0x43, 0x0f, 0xb6, 0x3c, 0x2c] ++ [0x48]).length + 1 >
    CODE_SIZE
  · rw [if_pos h3]; exact ⟨_, _, rfl⟩
  rw [if_neg h3]
  dsimp only
  by_cases h4 : (s.code ++ [0x43, 0x0f, 0xb6, 0x3c, 0x2c] ++ [0x48] ++
    [0xb8]).length + 8 > CODE_SIZE
  · rw [if_pos h4]; exact ⟨_, _, rfl⟩
  rw [if_neg h4]
  dsimp only
  by_cases h5 : (s.code ++ [0x43, 0x0f, 0xb6, 0x3c, 0x2c] ++ [0x48] ++ [0xb8] ++
    leBytes 8 pc).length + 1 > CODE_SIZE
  · rw [if_pos h5]; exact ⟨_, _, rfl⟩
  rw [if_neg h5]
  dsimp only
  by_cases h6 : (s.code ++ [0x43, 0x0f, 0xb6, 0x3c, 0x2c] ++ [0x48] ++ [0xb8] ++
    leBytes 8 pc ++ [0xff]).length + 1 > CODE_SIZE
  · rw [if_pos h6]; exact ⟨_, _, rfl⟩
  exfalso
  simp only [List.length_append, List.length_cons, List.length_nil,
    leBytes_length] at h6
  omega

theorem emit_putchar_fits {pc : Nat} {s : St}
    (h : s.code.length + 17 ≤ CODE_SIZE) :
    ∃ s', emit_putchar pc s = .ok s' ∧ s'.code.length = s.code.length + 17 := by
  simp only [emit_putchar, emit_bytes, emit_byte, emit_u64, check_space]
  have h1 : ¬(s.code.length + [0x43, 0x0f, 0xb6, 0x3c, 0x2c].length > CODE_SIZE) := by
    simp only [List.length_cons, List.length_nil]; omega
  rw [if_neg h1]
  dsimp only
  have h2 : ¬((s.code ++ [0x43, 0x0f, 0xb6, 0x3c, 0x2c]).length + 1 > CODE_SIZE) := by
    simp only [List.length_append, List.length_cons, List.length_nil]; omega
  rw [if_neg h2]
  dsimp only
  have h3 : ¬((s.code ++ [0x43, 0x0f, 0xb6, 0x3c, 0x2c] ++ [0x48]).length + 1 >
      CODE_SIZE) := by
    simp only [List.length_append, List.length_cons, List.length_nil]; omega
  rw [if_neg h3]
  dsimp only
  have h4 : ¬((s.code ++ [0x43, 0x0f, 0xb6, 0x3c, 0x2c] ++ [0x48] ++
      [0xb8]).length + 8 > CODE_SIZE) := by
    simp only [List.length_append, List.length_cons, List.length_nil]; omega
  rw [if_neg h4]
  dsimp only
  have h5 : ¬((s.code ++ [0x43, 0x0f, 0xb6, 0x3c, 0x2c] ++ [0x48] ++ [0xb8] ++
      leBytes 8 pc).length + 1 > CODE_SIZE) := by
    simp only [List.length_append, List.length_cons, List.length_nil,
      leBytes_length]; omega
  rw [if_neg h5]
  dsimp only
  have h6 : ¬((s.code ++ [0x43, 0x0f, 0xb6, 0x3c, 0x2c] ++ [0x48] ++ [0xb8] ++
      leBytes 8 pc ++ [0xff]).length + 1 > CODE_SIZE) := by
    simp only [List.length_append, List.length_cons, List.length_nil,
      leBytes_length]; omega
  rw [if_neg h6]
  dsimp only
  refine ⟨_, rfl, ?_⟩
  simp only [List.length_append, List.length_cons, List.length_nil,
    leBytes_length]

theorem compileLoop_dots_overflow :
    ∀ (k : Nat) (pc gc i : Nat) (fx : List Nat) (s : St),
      s.code.length ≤ CODE_SIZE →
      CODE_SIZE < s.code.length + 17 * k →
      ∃ u n, compileLoop pc gc (List.replicate k '.') i fx s =
        .error (.overflow u n) := by
  intro k
  induction k with
  | zero =>
    intro pc gc i fx s hle hgt
    omega
  | succ k ih =>
    intro pc gc i fx s hle hgt
    rw [List.replicate_succ, compileLoop_putc]
    by_cases hsp : s.code.length + 17 ≤ CODE_SIZE
    · obtain ⟨s2, hs2, hlen⟩ := emit_putchar_fits hsp
      rw [hs2]
      have hb1 : s2.code.length ≤ CODE_SIZE := by omega
      have hb2 : CODE_SIZE < s2.code.length + 17 * k := by omega
      obtain ⟨u, n, hrec⟩ := ih pc gc (i + 1) fx s2 hb1 hb2
      exact ⟨u, n, by simpa [Except.bind] using hrec⟩
    · obtain ⟨u, n, herr⟩ := @emit_putchar_overflow pc s (by omega)
      rw [herr]
      exact ⟨u, n, rfl⟩

theorem compile_of_compileLoop_error (pc gc : Nat) (src : List Char)
    (u n : Nat)
    (h : compileLoop pc gc src 0 [] ⟨prologueBytes⟩ = .error (.overflow u n)) :
    compile pc gc src = .error (.overflow u n) := by
  unfold compile
  rw [emit_prologue_empty]
  dsimp only
  rw [h]

theorem compile_dots_overflow (pc gc : Nat) :
    ∃ u n, compile pc gc (List.replicate 61681 '.') =
      .error (.overflow u n) := by
  obtain ⟨u, n, h⟩ := compileLoop_dots_overflow 61681 pc gc 0 []
    ⟨prologueBytes⟩ (by decide) (by decide)
  exact ⟨u, n, compile_of_compileLoop_error pc gc _ u n h⟩

theorem specBal_replicate_dot (n : Nat) : specBal (List.replicate n '.') = 0 := by
  induction n with
  | zero => simp [specBal]
  | succ n ih => rw [List.replicate_succ, specBal_cons, ih]; simp [bdelta]

theorem validate_dots (n : Nat) : validate (List.replicate n '.') = .ok () := by
  rw [validate]
  refine (validateGo_ok_iff _ 0 0 0 0 le_rfl).mpr ⟨?_, ?_, ?_⟩
  · intro p hp
    rw [List.take_replicate, specBal_replicate_dot]
    simp
  · rw [specBal_replicate_dot]
    norm_num
  · refine mdFold_le _ 0 0 (by norm_num) ?_
    intro p hp
    rw [List.take_replicate, specBal_replicate_dot]
    norm_num

/-- The invocation whose inline script is a run of dots long enough to
overflow the code buffer during emission. -/
def dotsEnv : Env :=
  ⟨["-e", String.mk (List.replicate 61681 '.')], true, [], true, true, true, true, 0, 0⟩

theorem parse_inline_only (S : String) :
    parseArgsGo ["-e", S] none none false = .done (some S) none false := by
  simp [parseArgsGo]

theorem dots_parse : parseArgsGo dotsEnv.argv none none false =
    .done (some (String.mk (List.replicate 61681 '.'))) none false := by
  have h : dotsEnv.argv = ["-e", String.mk (List.replicate 61681 '.')] := rfl
  rw [h]
  exact parse_inline_only _

theorem dots_source : mainSource dotsEnv = some (List.replicate 61681 '.') := by
  unfold mainSource
  rw [dots_parse]

theorem mainModel_overflow (env : Env) (S : String) (v : Bool) (u n : Nat)
    (hargv : parseArgsGo env.argv none none false = .done (some S) none v)
    (hval : validate S.data = .ok ())
    (hcode : env.mmapCodeOk = true) (htape : env.mmapTapeOk = true)
    (hvlog : (v && !env.reallocOk) = false)
    (hcomp : compile env.putcharAddr env.getcharAddr S.data =
      .error (.overflow u n)) :
    mainModel env =
      (1, [.mmapCode (PROT_READ ||| PROT_WRITE),
           .mmapTape (PROT_READ ||| PROT_WRITE),
           .compileWrites, .overflowExit u n]) := by
  have hsrc : mainSource env = some S.data := by
    unfold mainSource
    rw [hargv]
  unfold mainModel
  rw [hargv]
  dsimp only
  rw [hsrc]
  dsimp only
  rw [hval, hcode, htape, hvlog]
  dsimp only
  rw [hcomp]
  simp

theorem dots_mainModel (u n : Nat)
    (hcomp : compile 0 0 (List.replicate 61681 '.') =
      .error (.overflow u n)) :
    mainModel dotsEnv =
      (1, [.mmapCode (PROT_READ ||| PROT_WRITE),
           .mmapTape (PROT_READ ||| PROT_WRITE),
           .compileWrites, .overflowExit u n]) :=
  mainModel_overflow dotsEnv (String.mk (List.replicate 61681 '.')) false u n
    dots_parse (validate_dots 61681) rfl rfl rfl hcomp

/-- C8 counterexample: in the dots-overflow run, the program has mapped
both the code buffer and the tape, hits the overflow inside check_space,
and exits 1 without unmapping either region: the claimed release on every
error path fails on the overflow path. -/
theorem C8_counterexample :
    ∃ u n,
      mainModel dotsEnv =
        (1, [.mmapCode (PROT_READ ||| PROT_WRITE),
             .mmapTape (PROT_READ ||| PROT_WRITE),
             .compileWrites, .overflowExit u n]) ∧
      Ev.mmapCode (PROT_READ ||| PROT_WRITE) ∈ (mainModel dotsEnv).2 ∧
      Ev.mmapTape (PROT_READ ||| PROT_WRITE) ∈ (mainModel dotsEnv).2 ∧
      Ev.munmapCode ∉ (mainModel dotsEnv).2 ∧
      Ev.munmapTape ∉ (mainModel dotsEnv).2 ∧
      (mainModel dotsEnv).1 ≠ 0 := by
  obtain ⟨u, n, hcomp⟩ := compile_dots_overflow 0 0
  have hm := dots_mainModel u n hcomp
  refine ⟨u, n, hm, ?_, ?_, ?_, ?_, ?_⟩ <;> rw [hm] <;> simp

/-- C8 amended: two abort paths leak.  Every error path that goes through
neither the check_space overflow exit nor the verbose-mode vlog_push
realloc-failure exit releases exactly the regions it had acquired before
exiting; the overflow path and the vlog realloc-failure path each exit 1
with both the code buffer and the tape still mapped. -/
theorem C8_release_except_aborts (env : Env) :
    ((∀ u n, Ev.overflowExit u n ∉ (mainModel env).2) →
      Ev.vlogReallocExit ∉ (mainModel env).2 →
      (∀ p, Ev.mmapCode p ∈ (mainModel env).2 →
        Ev.munmapCode ∈ (mainModel env).2) ∧
      (∀ p, Ev.mmapTape p ∈ (mainModel env).2 →
        Ev.munmapTape ∈ (mainModel env).2)) ∧
    (∀ u n, Ev.overflowExit u n ∈ (mainModel env).2 →
      (mainModel env).1 = 1 ∧ Ev.munmapCode ∉ (mainModel env).2 ∧
        Ev.munmapTape ∉ (mainModel env).2) ∧
    (Ev.vlogReallocExit ∈ (mainModel env).2 →
      (mainModel env).1 = 1 ∧ Ev.munmapCode ∉ (mainModel env).2 ∧
        Ev.munmapTape ∉ (mainModel env).2) := by
  rcases mainModel_cases env with h | h | h | h | h | h |
    ⟨src, hsrc, hval, h | h | h | ⟨u, n, hcmp, h⟩ | ⟨p, hcmp, h⟩ | h | h⟩ <;>
    rw [h] <;>
    refine ⟨?_, ?_, ?_⟩ <;>
    simp

/-- C8 witness: a successful run releases both regions, instantiating the
no-abort conjunct, and the vlog conjunct applied to a verbose run whose
realloc fails confirms that run exits holding the code buffer. -/
theorem C8_release_except_aborts_witness :
    Ev.munmapCode ∈ (mainModel ⟨["-e", "+"], true, [], true, true, true, true, 0, 0⟩).2 ∧
    Ev.munmapTape ∈ (mainModel ⟨["-e", "+"], true, [], true, true, true, true, 0, 0⟩).2 ∧
    Ev.munmapCode ∉
      (mainModel ⟨["-v", "-e", "+"], true, [], true, true, true, false, 0, 0⟩).2 := by
  have key : mainModel ⟨["-e", "+"], true, [], true, true, true, true, 0, 0⟩ =
      (0, [.mmapCode 3, .mmapTape 3, .compileWrites, .mprotectCode 5,
        .callEntry, .munmapTape, .munmapCode]) := by
    unfold mainModel
    simp only [compile_eq_compileF]
    rfl
  have keyv : mainModel ⟨["-v", "-e", "+"], true, [], true, true, true, false, 0, 0⟩ =
      (1, [.mmapCode 3, .mmapTape 3, .compileWrites, .vlogReallocExit]) := by
    unfold mainModel
    rfl
  refine ⟨?_, ?_, ?_⟩
  · exact ((C8_release_except_aborts
        ⟨["-e", "+"], true, [], true, true, true, true, 0, 0⟩).1
      (by rw [key]; simp) (by rw [key]; simp)).1 3 (by rw [key]; simp)
  · exact ((C8_release_except_aborts
        ⟨["-e", "+"], true, [], true, true, true, true, 0, 0⟩).1
      (by rw [key]; simp) (by rw [key]; simp)).2 3 (by rw [key]; simp)
  · exact ((C8_release_except_aborts
        ⟨["-v", "-e", "+"], true, [], true, true, true, false, 0, 0⟩).2.2
      (by rw [keyv]; simp)).2.1

/-- Iterate the machine one decoded instruction at a time. -/
def stepN (pcA gcA : Nat) : Nat → Mach → Option Mach
  | 0, m => some m
  | k + 1, m =>
    match step pcA gcA m with
    | some m2 => stepN pcA gcA k m2
    | none => none

theorem u8ofInt_cast_pos {d : Int} (h1 : 0 < d) (h2 : d < 256) :
    (u8ofInt d : Int) = d := by
  unfold u8ofInt
  omega

theorem u8ofInt_lt (d : Int) : u8ofInt d < 256 := by
  unfold u8ofInt
  omega

theorem step_addCell (pcA gcA : Nat) (pre post : List Nat) (m : Mach) (d : Int)
    (hd1 : -128 ≤ d) (hd2 : d ≤ 128) (hd0 : d ≠ 0)
    (hcode : m.code = pre ++ (addCellBytes d ++ post))
    (hrip : m.rip = pre.length) :
    ∃ m2, step pcA gcA m = some m2 ∧
      m2.rip = pre.length + (addCellBytes d).length ∧
      m2.ptr = m.ptr ∧
      m2.tape m.ptr < 256 ∧
      (m2.tape m.ptr : Int) % 256 = ((m.tape m.ptr : Int) + d) % 256 ∧
      m2.halted = m.halted ∧ m2.code = m.code := by
  by_cases h1 : d = 1
  · subst h1
    have hb : addCellBytes 1 = [0x43, 0xfe, 0x04, 0x2c] := rfl
    rw [hb] at hcode
    have hdrop : m.code.drop m.rip = 0x43 :: 0xfe :: 0x04 :: 0x2c :: post := by
      rw [hcode, hrip, List.drop_left]
      rfl
    have hstep : step pcA gcA m =
        some
          { m with
            rip := m.rip + 4,
            tape := tapeSet m.tape m.ptr ((m.tape m.ptr + 1) % 256),
            zf := decide ((m.tape m.ptr + 1) % 256 = 0) } := by
      unfold step
      rw [hdrop]
    refine ⟨_, hstep, by simp [hrip, hb], rfl, ?_, ?_, rfl, rfl⟩
    · simp [tapeSet]
      try omega
    · simp [tapeSet]
      try omega
  by_cases h2 : d = -1
  · subst h2
    have hb : addCellBytes (-1) = [0x43, 0xfe, 0x0c, 0x2c] := rfl
    rw [hb] at hcode
    have hdrop : m.code.drop m.rip = 0x43 :: 0xfe :: 0x0c :: 0x2c :: post := by
      rw [hcode, hrip, List.drop_left]
      rfl
    have hstep : step pcA gcA m =
        some
          { m with
            rip := m.rip + 4,
            tape := tapeSet m.tape m.ptr ((m.tape m.ptr + 255) % 256),
            zf := decide ((m.tape m.ptr + 255) % 256 = 0) } := by
      unfold step
      rw [hdrop]
    refine ⟨_, hstep, by simp [hrip, hb], rfl, ?_, ?_, rfl, rfl⟩
    · simp [tapeSet]
      try omega
    · simp [tapeSet]
      try omega
  by_cases h3 : d > 0
  · have hb : addCellBytes d = [0x43, 0x80, 0x04, 0x2c, u8ofInt d] := by
      unfold addCellBytes
      rw [if_neg h1, if_neg h2, if_pos h3]
    rw [hb] at hcode
    have hdrop : m.code.drop m.rip =
        0x43 :: 0x80 :: 0x04 :: 0x2c :: u8ofInt d :: post := by
      rw [hcode, hrip, List.drop_left]
      rfl
    have hstep : step pcA gcA m =
        some
          { m with
            rip := m.rip + 5,
            tape := tapeSet m.tape m.ptr ((m.tape m.ptr + u8ofInt d) % 256),
            zf := decide ((m.tape m.ptr + u8ofInt d) % 256 = 0) } := by
      unfold step
      rw [hdrop]
    have hu : (u8ofInt d : Int) = d := u8ofInt_cast_pos h3 (by omega)
    refine ⟨_, hstep, by simp [hrip, hb], rfl, ?_, ?_, rfl, rfl⟩
    · simp [tapeSet]
      try omega
    · simp [tapeSet]
      try omega
  · have h4 : d < 0 := by omega
    have hb : addCellBytes d = [0x43, 0x80, 0x2c, 0x2c, u8ofInt (-d)] := by
      unfold addCellBytes
      rw [if_neg h1, if_neg h2, if_neg h3]
    rw [hb] at hcode
    have hdrop : m.code.drop m.rip =
        0x43 :: 0x80 :: 0x2c :: 0x2c :: u8ofInt (-d) :: post := by
      rw [hcode, hrip, List.drop_left]
      rfl
    have hstep : step pcA gcA m =
        some
          { m with
            rip := m.rip + 5,
            tape := tapeSet m.tape m.ptr
              ((m.tape m.ptr + (256 - u8ofInt (-d) % 256)) % 256),
            zf := decide ((m.tape m.ptr + (256 - u8ofInt (-d) % 256)) % 256 = 0) } := by
      unfold step
      rw [hdrop]
    have hu : (u8ofInt (-d) : Int) = -d := u8ofInt_cast_pos (by omega) (by omega)
    have hul : u8ofInt (-d) < 256 := u8ofInt_lt _
    refine ⟨_, hstep, by simp [hrip, hb], rfl, ?_, ?_, rfl, rfl⟩
    · simp [tapeSet]
      try omega
    · simp [tapeSet]
      try omega

theorem step_movePtr (pcA gcA : Nat) (pre post : List Nat) (m : Mach) (d : Int)
    (hd0 : d ≠ 0) (hd31 : d < 2 ^ 31) (hd31n : -(2 ^ 31) < d)
    (hcode : m.code = pre ++ (movePtrBytes d ++ post))
    (hrip : m.rip = pre.length) :
    ∃ m2, step pcA gcA m = some m2 ∧
      m2.rip = pre.length + (movePtrBytes d).length ∧
      m2.ptr = m.ptr + d ∧
      m2.tape = m.tape ∧
      m2.halted = m.halted ∧ m2.code = m.code := by
  by_cases h1 : d = 1
  · subst h1
    have hb : movePtrBytes 1 = [0x49, 0xff, 0xc5] := rfl
    rw [hb] at hcode
    have hdrop : m.code.drop m.rip = 0x49 :: 0xff :: 0xc5 :: post := by
      rw [hcode, hrip, List.drop_left]
      rfl
    have hstep : step pcA gcA m =
        some
          { m with
            rip := m.rip + 3,
            ptr := m.ptr + 1,
            zf := decide (m.ptr + 1 = 0) } := by
      unfold step
      rw [hdrop]
    exact ⟨_, hstep, by simp [hrip, hb], rfl, rfl, rfl, rfl⟩
  by_cases h2 : d = -1
  · subst h2
    have hb : movePtrBytes (-1) = [0x49, 0xff, 0xcd] := rfl
    rw [hb] at hcode
    have hdrop : m.code.drop m.rip = 0x49 :: 0xff :: 0xcd :: post := by
      rw [hcode, hrip, List.drop_left]
      rfl
    have hstep : step pcA gcA m =
        some
          { m with
            rip := m.rip + 3,
            ptr := m.ptr - 1,
            zf := decide (m.ptr - 1 = 0) } := by
      unfold step
      rw [hdrop]
    refine ⟨_, hstep, by simp [hrip, hb], ?_, rfl, rfl, rfl⟩
    show m.ptr - 1 = m.ptr + -1
    ring
  by_cases h3 : d > 0 ∧ d ≤ 127
  · have hb : movePtrBytes d = [0x49, 0x83, 0xc5, u8ofInt d] := by
      unfold movePtrBytes
      rw [if_neg h1, if_neg h2, if_pos h3]
    rw [hb] at hcode
    have hdrop : m.code.drop m.rip =
        0x49 :: 0x83 :: 0xc5 :: u8ofInt d :: post := by
      rw [hcode, hrip, List.drop_left]
      rfl
    have hstep : step pcA gcA m =
        some
          { m with
            rip := m.rip + 4,
            ptr := m.ptr + (if u8ofInt d % 256 < 128 then
                ((u8ofInt d % 256 : Nat) : Int)
              else ((u8ofInt d % 256 : Nat) : Int) - 256),
            zf := decide (m.ptr + (if u8ofInt d % 256 < 128 then
                ((u8ofInt d % 256 : Nat) : Int)
              else ((u8ofInt d % 256 : Nat) : Int) - 256) = 0) } := by
      unfold step
      rw [hdrop]
    have hu : (u8ofInt d : Int) = d := u8ofInt_cast_pos h3.1 (by omega)
    have hdd : (if u8ofInt d % 256 < 128 then ((u8ofInt d % 256 : Nat) : Int)
        else ((u8ofInt d % 256 : Nat) : Int) - 256) = d := by
      have hlt : u8ofInt d < 128 := by omega
      rw [if_pos (by omega)]
      push_cast
      omega
    rw [hdd] at hstep
    exact ⟨_, hstep, by simp [hrip, hb], rfl, rfl, rfl, rfl⟩
  by_cases h4 : d < 0 ∧ d ≥ -127
  · have hb : movePtrBytes d = [0x49, 0x83, 0xed, u8ofInt (-d)] := by
      unfold movePtrBytes
      rw [if_neg h1, if_neg h2, if_neg h3, if_pos h4]
    rw [hb] at hcode
    have hdrop : m.code.drop m.rip =
        0x49 :: 0x83 :: 0xed :: u8ofInt (-d) :: post := by
      rw [hcode, hrip, List.drop_left]
      rfl
    have hstep : step pcA gcA m =
        some
          { m with
            rip := m.rip + 4,
            ptr := m.ptr - (if u8ofInt (-d) % 256 < 128 then
                ((u8ofInt (-d) % 256 : Nat) : Int)
              else ((u8ofInt (-d) % 256 : Nat) : Int) - 256),
            zf := decide (m.ptr - (if u8ofInt (-d) % 256 < 128 then
                ((u8ofInt (-d) % 256 : Nat) : Int)
              else ((u8ofInt (-d) % 256 : Nat) : Int) - 256) = 0) } := by
      unfold step
      rw [hdrop]
    have hu : (u8ofInt (-d) : Int) = -d := u8ofInt_cast_pos (by omega) (by omega)
    have hdd : (if u8ofInt (-d) % 256 < 128 then ((u8ofInt (-d) % 256 : Nat) : Int)
        else ((u8ofInt (-d) % 256 : Nat) : Int) - 256) = -d := by
      have hlt : u8ofInt (-d) < 128 := by omega
      rw [if_pos (by omega)]
      push_cast
      omega
    rw [hdd] at hstep
    refine ⟨_, hstep, by simp [hrip, hb], ?_, rfl, rfl, rfl⟩
    show m.ptr - -d = m.ptr + d
    ring
  by_cases h5 : d > 0
  · have hb : movePtrBytes d = [0x49, 0x81, 0xc5] ++ leBytes 4 (u32ofInt d) := by
      unfold movePtrBytes
      rw [if_neg h1, if_neg h2, if_neg h3, if_neg h4, if_pos h5]
    rw [hb] at hcode
    have hdrop : m.code.drop m.rip =
        0x49 :: 0x81 :: 0xc5 :: (leBytes 4 (u32ofInt d) ++ post) := by
      rw [hcode, hrip, List.drop_left]
      simp
    have hstep : step pcA gcA m =
        some
          { m with
            rip := m.rip + 7,
            ptr := m.ptr + toInt32 (readU32 m.code (m.rip + 3)),
            zf := decide (m.ptr + toInt32 (readU32 m.code (m.rip + 3)) = 0) } := by
      unfold step
      rw [hdrop]
    have hcode2 : m.code = (pre ++ [0x49, 0x81, 0xc5]) ++
        (leBytes 4 (u32ofInt d) ++ post) := by
      rw [hcode]
      simp
    have hread : readU32 m.code (m.rip + 3) = u32ofInt d := by
      rw [hcode2, hrip]
      have := readU32_leBytes (u32ofInt_lt d) (pre ++ [0x49, 0x81, 0xc5]) post
      simpa using this
    have htoi : toInt32 (u32ofInt d) = d := toInt32_u32ofInt (by omega) hd31
    rw [hread, htoi] at hstep
    refine ⟨_, hstep, ?_, rfl, rfl, rfl, rfl⟩
    simp [hrip, hb, leBytes_length]
  · have h6 : d < 0 := by omega
    have hb : movePtrBytes d = [0x49, 0x81, 0xed] ++ leBytes 4 (u32ofInt (-d)) := by
      unfold movePtrBytes
      rw [if_neg h1, if_neg h2, if_neg h3, if_neg h4, if_neg h5]
    rw [hb] at hcode
    have hdrop : m.code.drop m.rip =
        0x49 :: 0x81 :: 0xed :: (leBytes 4 (u32ofInt (-d)) ++ post) := by
      rw [hcode, hrip, List.drop_left]
      simp
    have hstep : step pcA gcA m =
        some
          { m with
            rip := m.rip + 7,
            ptr := m.ptr - toInt32 (readU32 m.code (m.rip + 3)),
            zf := decide (m.ptr - toInt32 (readU32 m.code (m.rip + 3)) = 0) } := by
      unfold step
      rw [hdrop]
    have hcode2 : m.code = (pre ++ [0x49, 0x81, 0xed]) ++
        (leBytes 4 (u32ofInt (-d)) ++ post) := by
      rw [hcode]
      simp
    have hread : readU32 m.code (m.rip + 3) = u32ofInt (-d) := by
      rw [hcode2, hrip]
      have := readU32_leBytes (u32ofInt_lt (-d)) (pre ++ [0x49, 0x81, 0xed]) post
      simpa using this
    have htoi : toInt32 (u32ofInt (-d)) = -d := toInt32_u32ofInt (by omega) (by omega)
    rw [hread, htoi] at hstep
    refine ⟨_, hstep, ?_, ?_, rfl, rfl, rfl⟩
    · simp [hrip, hb, leBytes_length]
    · show m.ptr - -d = m.ptr + d
      ring

theorem naiveCell_all_pm :
    ∀ (l : List Char) (z : Nat), (∀ c ∈ l, c = '+' ∨ c = '-') → z < 256 →
      naiveCell l z < 256 ∧
      (naiveCell l z : Int) % 256 = ((z : Int) + (l.map pmDelta).sum) % 256 := by
  intro l
  induction l with
  | nil =>
    intro z h hz
    exact ⟨hz, by simp [naiveCell]⟩
  | cons c t ih =>
    intro z h hz
    have hc := h c (List.mem_cons_self c t)
    have ht : ∀ x ∈ t, x = '+' ∨ x = '-' := fun x hx =>
      h x (List.mem_cons_of_mem c hx)
    rcases hc with hc | hc <;> subst hc
    · have hlt : (z + 1) % 256 < 256 := Nat.mod_lt _ (by norm_num)
      obtain ⟨ih1, ih2⟩ := ih ((z + 1) % 256) ht hlt
      have hred : naiveCell ('+' :: t) z = naiveCell t ((z + 1) % 256) := by
        simp [naiveCell]
      refine ⟨by rw [hred]; exact ih1, ?_⟩
      rw [hred, ih2]
      have hpm : pmDelta '+' = 1 := rfl
      rw [List.map_cons, List.sum_cons, hpm]
      omega
    · have hlt : (z + 255) % 256 < 256 := Nat.mod_lt _ (by norm_num)
      obtain ⟨ih1, ih2⟩ := ih ((z + 255) % 256) ht hlt
      have hred : naiveCell ('-' :: t) z = naiveCell t ((z + 255) % 256) := by
        simp [naiveCell]
      refine ⟨by rw [hred]; exact ih1, ?_⟩
      rw [hred, ih2]
      have hpm : pmDelta '-' = -1 := rfl
      rw [List.map_cons, List.sum_cons, hpm]
      omega

theorem naivePtr_all_ar :
    ∀ (l : List Char) (p : Int),
      naivePtr l p = p + (l.map arDelta).sum := by
  intro l
  induction l with
  | nil => intro p; simp [naivePtr]
  | cons c t ih =>
    intro p
    by_cases hc : c = '>'
    · subst hc
      have hred : naivePtr ('>' :: t) p = naivePtr t (p + 1) := by
        simp [naivePtr]
      rw [hred, ih]
      have : arDelta '>' = 1 := rfl
      rw [List.map_cons, List.sum_cons, this]
      ring
    · have hred : naivePtr (c :: t) p = naivePtr t (p - 1) := by
        simp [naivePtr, hc]
      rw [hred, ih]
      have : arDelta c = -1 := by simp [arDelta, hc]
      rw [List.map_cons, List.sum_cons, this]
      ring

theorem pmDelta_sum_bound :
    ∀ l : List Char, -(l.length : Int) ≤ (l.map pmDelta).sum ∧
      (l.map pmDelta).sum ≤ l.length := by
  intro l
  induction l with
  | nil => simp
  | cons c t ih =>
    rw [List.map_cons, List.sum_cons]
    have hpm : pmDelta c = 1 ∨ pmDelta c = -1 := by
      unfold pmDelta
      split_ifs <;> simp
    simp only [List.length_cons]
    push_cast
    rcases hpm with h | h <;> rw [h] <;> omega

theorem arDelta_sum_bound :
    ∀ l : List Char, -(l.length : Int) ≤ (l.map arDelta).sum ∧
      (l.map arDelta).sum ≤ l.length := by
  intro l
  induction l with
  | nil => simp
  | cons c t ih =>
    rw [List.map_cons, List.sum_cons]
    have har : arDelta c = 1 ∨ arDelta c = -1 := by
      unfold arDelta
      split_ifs <;> simp
    simp only [List.length_cons]
    push_cast
    rcases har with h | h <;> rw [h] <;> omega


/-- C2: run-length collapsing is semantically transparent.  For a maximal
run of cell operators the compile loop consumes the whole run and emits a
single collapsed instruction (or none when the clamped delta is zero);
executing that block from any machine state positioned at its first byte
changes the current cell exactly as the naive one-instruction-per-character
expansion does, and moves nothing else.  Likewise a maximal run of pointer
operators emits one collapsed pointer move (or nothing for net zero) whose
execution lands the pointer exactly where the naive expansion would. -/
theorem C2_run_collapsing_transparent :
    (∀ (pc gc i : Nat) (fx : List Nat) (s : St) (out : List Nat × St)
        (l : List Char),
      l ≠ [] → (∀ c ∈ l, c = '+' ∨ c = '-') →
      compileLoop pc gc l i fx s = .ok out →
      out.1 = fx ∧
      ∃ B, out.2.code = s.code ++ B ∧
        ∀ (pcA gcA : Nat) (m : Mach) (post : List Nat),
          m.code = s.code ++ (B ++ post) → m.rip = s.code.length →
          m.tape m.ptr < 256 →
          ∃ k m2, k ≤ 1 ∧ stepN pcA gcA k m = some m2 ∧
            m2.tape m.ptr = naiveCell l (m.tape m.ptr) ∧
            m2.ptr = m.ptr ∧
            m2.rip = s.code.length + B.length ∧
            m2.halted = m.halted ∧ m2.code = m.code) ∧
    (∀ (pc gc i : Nat) (fx : List Nat) (s : St) (out : List Nat × St)
        (l : List Char),
      l ≠ [] → (∀ c ∈ l, c = '>' ∨ c = '<') → l.length < 2 ^ 31 →
      compileLoop pc gc l i fx s = .ok out →
      out.1 = fx ∧
      ∃ B, out.2.code = s.code ++ B ∧
        ∀ (pcA gcA : Nat) (m : Mach) (post : List Nat),
          m.code = s.code ++ (B ++ post) → m.rip = s.code.length →
          ∃ k m2, k ≤ 1 ∧ stepN pcA gcA k m = some m2 ∧
            m2.ptr = naivePtr l m.ptr ∧
            m2.tape = m.tape ∧
            m2.rip = s.code.length + B.length ∧
            m2.halted = m.halted ∧ m2.code = m.code) := by
  constructor
  · intro pc gc i fx s out l hne hpm hcomp
    obtain ⟨c, t, rfl⟩ : ∃ c t, l = c :: t := by
      cases l with
      | nil => exact absurd rfl hne
      | cons c t => exact ⟨c, t, rfl⟩
    have hc : c = '+' ∨ c = '-' := hpm c (List.mem_cons_self c t)
    rw [compileLoop_pm hc] at hcomp
    have hpr : plusRun (c :: t) = (((c :: t).map pmDelta).sum, []) :=
      plusRun_eq_of_all hpm
    rw [hpr] at hcomp
    dsimp only at hcomp
    by_cases h0 : clampDelta (((c :: t).map pmDelta).sum) = 0
    · rw [if_pos h0, compileLoop_nil] at hcomp
      have hout : out = (fx, s) := ((Except.ok.injEq _ _).mp hcomp).symm
      subst hout
      refine ⟨rfl, [], by simp, ?_⟩
      intro pcA gcA m post hmc hmr hz
      refine ⟨0, m, by norm_num, rfl, ?_, rfl, by rw [hmr]; simp, rfl, rfl⟩
      obtain ⟨hn1, hn2⟩ := naiveCell_all_pm (c :: t) (m.tape m.ptr) hpm hz
      have hD0 : ((c :: t).map pmDelta).sum % 256 = 0 := by
        rw [← clampDelta_eq_emod]
        exact h0
      omega
    · have hb1 : 0 ≤ clampDelta (((c :: t).map pmDelta).sum) := by
        rw [clampDelta_eq_emod]
        exact Int.emod_nonneg _ (by norm_num)
      have hb2 : clampDelta (((c :: t).map pmDelta).sum) < 256 := by
        rw [clampDelta_eq_emod]
        exact Int.emod_lt_of_pos _ (by norm_num)
      have hcde := clampDelta_eq_emod (((c :: t).map pmDelta).sum)
      by_cases h128 : clampDelta (((c :: t).map pmDelta).sum) ≤ 128
      · rw [if_neg h0, if_pos h128] at hcomp
        cases hemit : emit_add_cell (clampDelta (((c :: t).map pmDelta).sum)) s with
        | error e =>
          rw [hemit] at hcomp
          simp [Except.bind] at hcomp
        | ok s2 =>
          rw [hemit] at hcomp
          simp only [Except.bind, compileLoop_nil] at hcomp
          have hout : out = (fx, s2) := ((Except.ok.injEq _ _).mp hcomp).symm
          subst hout
          have hs2 : s2.code =
              s.code ++ addCellBytes (clampDelta (((c :: t).map pmDelta).sum)) := by
            rw [emit_add_cell_eq] at hemit
            exact (emit_bytes_ok hemit).1
          refine ⟨rfl, _, hs2, ?_⟩
          intro pcA gcA m post hmc hmr hz
          obtain ⟨m2, hstep, hrip2, hptr2, hlt2, hmod2, hhalt2, hcode2⟩ :=
            step_addCell pcA gcA s.code post m
              (clampDelta (((c :: t).map pmDelta).sum))
              (by omega) h128 h0 hmc hmr
          refine ⟨1, m2, le_rfl, ?_, ?_, hptr2, hrip2, hhalt2, hcode2⟩
          · show stepN pcA gcA 1 m = some m2
            unfold stepN
            rw [hstep]
            rfl
          · obtain ⟨hn1, hn2⟩ := naiveCell_all_pm (c :: t) (m.tape m.ptr) hpm hz
            omega
      · rw [if_neg h0, if_neg h128] at hcomp
        cases hemit : emit_add_cell
            (clampDelta (((c :: t).map pmDelta).sum) - 256) s with
        | error e =>
          rw [hemit] at hcomp
          simp [Except.bind] at hcomp
        | ok s2 =>
          rw [hemit] at hcomp
          simp only [Except.bind, compileLoop_nil] at hcomp
          have hout : out = (fx, s2) := ((Except.ok.injEq _ _).mp hcomp).symm
          subst hout
          have hs2 : s2.code = s.code ++
              addCellBytes (clampDelta (((c :: t).map pmDelta).sum) - 256) := by
            rw [emit_add_cell_eq] at hemit
            exact (emit_bytes_ok hemit).1
          refine ⟨rfl, _, hs2, ?_⟩
          intro pcA gcA m post hmc hmr hz
          obtain ⟨m2, hstep, hrip2, hptr2, hlt2, hmod2, hhalt2, hcode2⟩ :=
            step_addCell pcA gcA s.code post m
              (clampDelta (((c :: t).map pmDelta).sum) - 256)
              (by omega) (by omega) (by omega) hmc hmr
          refine ⟨1, m2, le_rfl, ?_, ?_, hptr2, hrip2, hhalt2, hcode2⟩
          · show stepN pcA gcA 1 m = some m2
            unfold stepN
            rw [hstep]
            rfl
          · obtain ⟨hn1, hn2⟩ := naiveCell_all_pm (c :: t) (m.tape m.ptr) hpm hz
            omega
  · intro pc gc i fx s out l hne har hlen hcomp
    obtain ⟨c, t, rfl⟩ : ∃ c t, l = c :: t := by
      cases l with
      | nil => exact absurd rfl hne
      | cons c t => exact ⟨c, t, rfl⟩
    have hc : c = '>' ∨ c = '<' := har c (List.mem_cons_self c t)
    have hnotpm : ¬(c = '+' ∨ c = '-') := by
      rcases hc with h | h <;> subst h <;> decide
    rw [compileLoop_ar hnotpm hc] at hcomp
    have hpr : arrowRun (c :: t) = (((c :: t).map arDelta).sum, []) :=
      arrowRun_eq_of_all har
    rw [hpr] at hcomp
    dsimp only at hcomp
    have hsb := arDelta_sum_bound (c :: t)
    by_cases h0 : ((c :: t).map arDelta).sum = 0
    · rw [if_pos h0, compileLoop_nil] at hcomp
      have hout : out = (fx, s) := ((Except.ok.injEq _ _).mp hcomp).symm
      subst hout
      refine ⟨rfl, [], by simp, ?_⟩
      intro pcA gcA m post hmc hmr
      refine ⟨0, m, by norm_num, rfl, ?_, rfl, by rw [hmr]; simp, rfl, rfl⟩
      rw [naivePtr_all_ar, h0]
      ring
    · rw [if_neg h0] at hcomp
      cases hemit : emit_move_ptr (((c :: t).map arDelta).sum) s with
      | error e =>
        rw [hemit] at hcomp
        simp [Except.bind] at hcomp
      | ok s2 =>
        rw [hemit] at hcomp
        simp only [Except.bind, compileLoop_nil] at hcomp
        have hout : out = (fx, s2) := ((Except.ok.injEq _ _).mp hcomp).symm
        subst hout
        have hs2 : s2.code = s.code ++
            movePtrBytes (((c :: t).map arDelta).sum) :=
          emit_move_ptr_ok hemit
        refine ⟨rfl, _, hs2, ?_⟩
        intro pcA gcA m post hmc hmr
        have hlen2 : ((c :: t).length : Int) < 2 ^ 31 := by exact_mod_cast hlen
        obtain ⟨m2, hstep, hrip2, hptr2, htape2, hhalt2, hcode2⟩ :=
          step_movePtr pcA gcA s.code post m (((c :: t).map arDelta).sum)
            h0 (by omega) (by omega) hmc hmr
        refine ⟨1, m2, le_rfl, ?_, ?_, htape2, hrip2, hhalt2, hcode2⟩
        · show stepN pcA gcA 1 m = some m2
          unfold stepN
          rw [hstep]
          rfl
        · rw [naivePtr_all_ar]
          exact hptr2

/-- C2 witness: the two-plus script emits the single collapsed add of 2;
executed from a zero cell the machine lands on the value the naive
expansion gives. -/
theorem C2_run_collapsing_transparent_witness :
    ∃ k m2, k ≤ 1 ∧
      stepN 0 0 k ⟨prologueBytes ++ ([0x43, 0x80, 0x04, 0x2c, 2] ++ []), 14, 0,
        fun _ => 0, 0, 0, false, [], [], false⟩ = some m2 ∧
      m2.tape 0 = naiveCell ['+', '+'] 0 := by
  have hcomp : compileLoop 0 0 ['+', '+'] 0 [] ⟨prologueBytes⟩ =
      .ok ([], ⟨prologueBytes ++ [0x43, 0x80, 0x04, 0x2c, 2]⟩) := by
    rw [← compileLoopF_eq 0 0 2 ['+', '+'] 0 [] ⟨prologueBytes⟩ (by norm_num)]
    decide
  obtain ⟨hfx, B, hB, hexec⟩ :=
    C2_run_collapsing_transparent.1 0 0 0 [] ⟨prologueBytes⟩
      ([], ⟨prologueBytes ++ [0x43, 0x80, 0x04, 0x2c, 2]⟩) ['+', '+']
      (by decide) (by decide) hcomp
  have hB' : prologueBytes ++ [0x43, 0x80, 0x04, 0x2c, 2] = prologueBytes ++ B :=
    hB
  have hBv : B = [0x43, 0x80, 0x04, 0x2c, 2] :=
    (List.append_cancel_left hB').symm
  subst hBv
  obtain ⟨k, m2, hk, hrun, hval, _, _, _, _⟩ :=
    hexec 0 0 ⟨prologueBytes ++ ([0x43, 0x80, 0x04, 0x2c, 2] ++ []), 14, 0,
      fun _ => 0, 0, 0, false, [], [], false⟩ [] rfl (by decide) (by decide)
  exact ⟨k, m2, hk, hrun, hval⟩

end BfJit